import Mathlib

/-!
Bandersnatch point arithmetic (`bandersnatch/point.go`).

A shallow embedding of the affine and projective twisted Edwards group law, the
coordinate conversions, the curve-equation solver and the point-compression codec of
`point.go`, followed by theorems about them.

Conventions of the embedding.

* The base-field element type `fp.Element` lives in the package `bandersnatch/fp`, which is
  not part of `point.go`.  Its arithmetic (`Add`, `Sub`, `Mul`, `Square`, `Double`, `Neg`,
  `Inverse`, `Div`, `Equal`, `IsZero`, `SetZero`, `SetOne`) is taken as a parameter: an
  arbitrary type `F` carrying a `Field` structure with decidable equality.  `Inverse` maps
  zero to zero and `Div(x, y)` is `x * Inverse(y)`, which is the convention of `Field`
  (`inv_zero`, `div_eq_mul_inv`).
* The remaining methods of `fp.Element` used by `point.go` (`Bytes`, `SetBytes`, `Sqrt`,
  `LexicographicallyLargest`) are collected in the record `ElementOps`.
* The curve-parameter object `edwards` (fields `A` and `D`) is the record `CurveParams`.
* Receivers are passed explicitly and the updated receiver is returned.
* Bytes are natural numbers below `256`; byte arrays and slices are lists.
-/

set_option linter.unusedSectionVars false

namespace Bandersnatch

/-! ## Data model -/

/-- PointAffine point on a twisted Edwards curve. -/
structure PointAffine (F : Type) where
  X : F
  Y : F
deriving DecidableEq, Repr

/-- PointProj point in projective coordinates. -/
structure PointProj (F : Type) where
  X : F
  Y : F
  Z : F
deriving DecidableEq, Repr

/-- The curve-parameter object `edwards`: the coefficients `A` and `D` of
`A*x^2 + y^2 = 1 + D*x^2*y^2`.  Its declaration is outside `point.go`. -/
structure CurveParams (F : Type) where
  A : F
  D : F

/-- The methods of `fp.Element` used by the codec and the solver that are not field
arithmetic.  `Bytes` returns the `[32]byte` encoding of an element, `SetBytes` decodes a
byte slice, `Sqrt` returns a square root or `none` (the `nil` result), and
`LexicographicallyLargest` is the sign predicate. -/
structure ElementOps (F : Type) where
  Bytes : F → List Nat
  SetBytes : List Nat → F
  Sqrt : F → Option F
  LexicographicallyLargest : F → Bool

/-- The constant `mCompressedNegative`. -/
def mCompressedNegative : Nat := 0x80

/-- The constant `mCompressedPositive`. -/
def mCompressedPositive : Nat := 0x00

/-- The constant `mUnmask`. -/
def mUnmask : Nat := 0x7f

/-- The constant `fp.Limbs`: the number of 64-bit limbs of a base-field element. -/
def fpLimbs : Nat := 4

/-- Size in bytes of a compressed point: `sizePointCompressed = fp.Limbs * 8`. -/
def sizePointCompressed : Nat := fpLimbs * 8

/-- The errors `SetBytes` can return (`io.ErrShortBuffer`). -/
inductive DecodeError where
  | ErrShortBuffer
deriving DecidableEq, Repr

/-- How a call ends: it returns a value, or the Go runtime panics (here: a nil pointer is
dereferenced). -/
inductive Outcome (α : Type) where
  | returned (v : α)
  | panicked
deriving DecidableEq, Repr

/-- What `SetBytes` hands back when it returns: the number of bytes read, the error (if
any) and the receiver after the call. -/
structure SetBytesResult (F : Type) where
  n : Nat
  err : Option DecodeError
  p : PointAffine F
deriving DecidableEq, Repr

/-! ## Codec -/

/-- The in-place reversal loop
`for i, j := 0, sizePointCompressed-1; i < j; i, j = i+1, j-1 { y[i], y[j] = y[j], y[i] }`.
The first argument bounds the number of iterations. -/
def swapLoop : Nat → Nat → Nat → List Nat → List Nat
  | 0, _, _, y => y
  | fuel + 1, i, j, y =>
    if i < j then
      swapLoop fuel (i + 1) (j - 1) ((y.set i (y.getD j 0)).set j (y.getD i 0))
    else y

variable {F : Type} [Field F] [DecidableEq F]

/-- Bytes returns the compressed point as a byte array. -/
def PointAffine.Bytes (ops : ElementOps F) (p : PointAffine F) : List Nat :=
  let y := ops.Bytes p.X
  let mask : Nat :=
    if ops.LexicographicallyLargest p.Y then mCompressedNegative else mCompressedPositive
  let y := y.set 0 (y.getD 0 0 ||| (mask % 256))
  let y := swapLoop sizePointCompressed 0 (sizePointCompressed - 1) y
  -- subtle.ConstantTimeCopy(1, res[:], y[:])
  let res := y
  res

/-- Marshal converts p to a byte slice. -/
def PointAffine.Marshal (ops : ElementOps F) (p : PointAffine F) : List Nat :=
  p.Bytes ops

/-- The curve-equation solver `computeY`: `y^2 = (A*x^2 - 1) / (D*x^2 - 1)`; `none` is the
`nil` result. -/
def computeY (c : CurveParams F) (ops : ElementOps F) (x : F) (choose_largest : Bool) :
    Option F :=
  let one : F := 1
  let num := x * x
  let den := num * c.D
  let den := den - one
  let num := num * c.A
  let num := num - one
  let y := num / den
  match ops.Sqrt y with
  | none => none
  | some y =>
    let is_largest := ops.LexicographicallyLargest y
    if choose_largest = is_largest then some y else some (-y)

/-- SetBytes sets p from buf.  The statement `p.Y = *computeY(...)` dereferences the
pointer returned by `computeY`; when that pointer is `nil` the call panics. -/
def PointAffine.SetBytes (c : CurveParams F) (ops : ElementOps F) (p : PointAffine F)
    (buf : List Nat) : Outcome (SetBytesResult F) :=
  if buf.length < sizePointCompressed then
    .returned ⟨0, some .ErrShortBuffer, p⟩
  else
    let bufCopy := buf.take sizePointCompressed
    let bufCopy := swapLoop sizePointCompressed 0 (sizePointCompressed - 1) bufCopy
    let isLexicographicallyLargest : Bool :=
      decide (((mCompressedNegative &&& bufCopy.getD 0 0) >>> 7) = 1)
    let bufCopy := bufCopy.set 0 (bufCopy.getD 0 0 &&& mUnmask)
    let x := ops.SetBytes bufCopy
    match computeY c ops x isLexicographicallyLargest with
    | none => .panicked
    | some y => .returned ⟨sizePointCompressed, none, ⟨x, y⟩⟩

/-- Unmarshal alias to SetBytes(): only the error is kept. -/
def PointAffine.Unmarshal (c : CurveParams F) (ops : ElementOps F) (p : PointAffine F)
    (b : List Nat) : Outcome (Option DecodeError × PointAffine F) :=
  match p.SetBytes c ops b with
  | .panicked => .panicked
  | .returned r => .returned (r.err, r.p)

/-- The sign flag `SetBytes` reads from a buffer: bit `0x80` of the first byte of the
reversed copy. -/
def decodedFlag (buf : List Nat) : Bool :=
  let bufCopy := swapLoop sizePointCompressed 0 (sizePointCompressed - 1)
    (buf.take sizePointCompressed)
  decide (((mCompressedNegative &&& bufCopy.getD 0 0) >>> 7) = 1)

/-- The x-coordinate `SetBytes` decodes from a buffer: the reversed copy with the flag bit
masked off, handed to the field decoder. -/
def decodedX (ops : ElementOps F) (buf : List Nat) : F :=
  let bufCopy := swapLoop sizePointCompressed 0 (sizePointCompressed - 1)
    (buf.take sizePointCompressed)
  ops.SetBytes (bufCopy.set 0 (bufCopy.getD 0 0 &&& mUnmask))

/-! ## Affine points -/

/-- Identity sets p to be the identity point. -/
def PointAffine.Identity : PointAffine F := ⟨0, 1⟩

/-- Equal returns true if p=p1 false otherwise. -/
def PointAffine.Equal (p p1 : PointAffine F) : Bool :=
  decide (p.X = p1.X) && decide (p.Y = p1.Y)

/-- IsOnCurve checks if a point is on the twisted Edwards curve. -/
def PointAffine.IsOnCurve (c : CurveParams F) (p : PointAffine F) : Bool :=
  let tmp := p.Y * p.Y
  let lhs := p.X * p.X
  let lhs := lhs * c.A
  let lhs := lhs + tmp
  let tmp := p.X * p.X
  let tmp := tmp * p.Y
  let tmp := tmp * p.Y
  let tmp := tmp * c.D
  let rhs : F := 1
  let rhs := rhs + tmp
  decide (lhs = rhs)

/-- Add adds two points (x,y), (u,v) on a twisted Edwards curve with parameters a, d. -/
def PointAffine.Add (c : CurveParams F) (p1 p2 : PointAffine F) : PointAffine F :=
  let xv := p1.X * p2.Y
  let yu := p1.Y * p2.X
  let pResX := xv + yu
  let xu := p1.X * p2.X
  let xu := xu * c.A
  let yv := p1.Y * p2.Y
  let pResY := yv - xu
  let dxyuv := xv * yu
  let dxyuv := dxyuv * c.D
  let one : F := 1
  let denx := one + dxyuv
  let deny := one - dxyuv
  ⟨pResX / denx, pResY / deny⟩

/-- The denominator `denx` computed inside `Add`. -/
def PointAffine.denx (c : CurveParams F) (p1 p2 : PointAffine F) : F :=
  let xv := p1.X * p2.Y
  let yu := p1.Y * p2.X
  let dxyuv := xv * yu
  let dxyuv := dxyuv * c.D
  let one : F := 1
  one + dxyuv

/-- The denominator `deny` computed inside `Add`. -/
def PointAffine.deny (c : CurveParams F) (p1 p2 : PointAffine F) : F :=
  let xv := p1.X * p2.Y
  let yu := p1.Y * p2.X
  let dxyuv := xv * yu
  let dxyuv := dxyuv * c.D
  let one : F := 1
  one - dxyuv

/-- Neither field division of `Add(p1, p2)` has a zero denominator. -/
def PointAffine.AddDefined (c : CurveParams F) (p1 p2 : PointAffine F) : Prop :=
  PointAffine.denx c p1 p2 ≠ 0 ∧ PointAffine.deny c p1 p2 ≠ 0

/-- Whether an addition divides by zero can be computed. -/
instance (c : CurveParams F) (p1 p2 : PointAffine F) :
    Decidable (PointAffine.AddDefined c p1 p2) := by
  unfold PointAffine.AddDefined
  infer_instance

/-- A property of the curve constants: adding a curve point to itself never divides by
zero. -/
def CurveParams.DoublingDefined (c : CurveParams F) : Prop :=
  ∀ p : PointAffine F, p.IsOnCurve c = true → PointAffine.AddDefined c p p

/-- Neg negates point (x,y) on a twisted Edwards curve with parameters a, d. -/
def PointAffine.Neg (p1 : PointAffine F) : PointAffine F :=
  ⟨-p1.X, p1.Y⟩

/-- Sub subtracts p2 from p1: the sum of p1 and the negation of p2. -/
def PointAffine.Sub (c : CurveParams F) (p1 p2 : PointAffine F) : PointAffine F :=
  let neg_p2 := PointAffine.Neg p2
  PointAffine.Add c p1 neg_p2

/-- Double doubles point (x,y) on a twisted Edwards curve with parameters a, d. -/
def PointAffine.Double (c : CurveParams F) (p1 : PointAffine F) : PointAffine F :=
  PointAffine.Add c p1 p1

/-- FromProj sets p in affine from p in projective. -/
def PointAffine.FromProj (p1 : PointProj F) : PointAffine F :=
  let one : F := 1
  if p1.Z = one then ⟨p1.X, p1.Y⟩
  else
    let zInv := p1.Z⁻¹
    ⟨p1.X * zInv, p1.Y * zInv⟩

/-! ## Projective points -/

/-- Identity sets p to be the identity point. -/
def PointProj.Identity : PointProj F := ⟨0, 1, 1⟩

/-- FromAffine sets p in projective from p in affine. -/
def PointProj.FromAffine (p1 : PointAffine F) : PointProj F :=
  ⟨p1.X, p1.Y, 1⟩

/-- Equal returns true if p=p1 false otherwise.  If one point is on the affine chart Z=0 it
returns false. -/
def PointProj.Equal (p p1 : PointProj F) : Bool :=
  if p.Z = 0 ∨ p1.Z = 0 then false
  else
    let pAffine := PointAffine.FromProj p
    let p1Affine := PointAffine.FromProj p1
    pAffine.Equal p1Affine

/-- Add adds points in projective coordinates. -/
def PointProj.Add (c : CurveParams F) (p1 p2 : PointProj F) : PointProj F :=
  let A := p1.Z * p2.Z
  let B := A * A
  let C := p1.X * p2.X
  let D := p1.Y * p2.Y
  let E := c.D * C * D
  let F' := B - E
  let G := B + E
  let H := p1.X + p1.Y
  let I := p2.X + p2.Y
  let resX := (H * I - C - D) * A * F'
  let H := c.A * C
  let resY := (D - H) * A * G
  let resZ := F' * G
  ⟨resX, resY, resZ⟩

/-- Double adds points in projective coordinates. -/
def PointProj.Double (c : CurveParams F) (p1 : PointProj F) : PointProj F :=
  let B := p1.X + p1.Y
  let B := B * B
  let C := p1.X * p1.X
  let D := p1.Y * p1.Y
  let E := c.A * C
  let F' := E + D
  let H := p1.Z * p1.Z
  let tmp := H + H
  let J := F' - tmp
  let resX := (B - C - D) * J
  let resY := (E - D) * F'
  let resZ := F' * J
  ⟨resX, resY, resZ⟩

/-- Neg sets p to -p1 and returns it. -/
def PointProj.Neg (p1 : PointProj F) : PointProj F :=
  ⟨-p1.X, p1.Y, p1.Z⟩


/-! ## Scalar multiplication, subgroup test and point lookup

A scalar enters through `scalar_mont.ToRegular()`, the subgroup order through
`GetEdwardsCurve().Order`; both are used only through `BitLen` and `Bit`, so each is
represented by its integer value, a natural number. -/

/-- Bit length by repeated halving; the first argument bounds the number of halvings. -/
def bitLenAux : Nat → Nat → Nat
  | 0, _ => 0
  | fuel + 1, n => if n = 0 then 0 else bitLenAux fuel (n / 2) + 1

/-- The method `BitLen()`: the number of bits of the integer value, `0` for zero. -/
def scalarBitLen (n : Nat) : Nat := bitLenAux n n

/-- The method `Bit(i)`: bit `i` of the integer value, as `0` or `1`. -/
def scalarBit (n i : Nat) : Nat := n / 2 ^ i % 2

/-- The loop of `ScalarMul` and `IsInPrimeSubgroup`,
`for i := bit_len; i >= 0; i-- { resProj.Double(&resProj);
if scalar.Bit(uint64(i)) == 1 { resProj.Add(&resProj, &p1Proj) } }`.
The natural-number argument is `i + 1`, the number of iterations still to run. -/
def doubleAndAddLoop (c : CurveParams F) (p1Proj : PointProj F) (scalar : Nat) :
    Nat → PointProj F → PointProj F
  | 0, resProj => resProj
  | i + 1, resProj =>
    let resProj := PointProj.Double c resProj
    let resProj := if scalarBit scalar i = 1 then PointProj.Add c resProj p1Proj else resProj
    doubleAndAddLoop c p1Proj scalar i resProj

/-- ScalarMul on an affine point: double-and-add in projective coordinates, converted back
with `FromProj`. -/
def PointAffine.ScalarMul (c : CurveParams F) (p1 : PointAffine F) (scalar : Nat) :
    PointAffine F :=
  let resProj : PointProj F := PointProj.Identity
  let p1Proj := PointProj.FromAffine p1
  let bit_len := scalarBitLen scalar
  let resProj := doubleAndAddLoop c p1Proj scalar (bit_len + 1) resProj
  PointAffine.FromProj resProj

/-- ScalarMul on a projective point: the same loop, returning the accumulator. -/
def PointProj.ScalarMul (c : CurveParams F) (p1 : PointProj F) (scalar : Nat) :
    PointProj F :=
  let resProj : PointProj F := PointProj.Identity
  let p1Proj := p1
  let bit_len := scalarBitLen scalar
  let resProj := doubleAndAddLoop c p1Proj scalar (bit_len + 1) resProj
  resProj

/-- IsInPrimeSubgroup multiplies the point by `order`, the value of
`GetEdwardsCurve().Order`, and compares the result with the identity. -/
def PointAffine.IsInPrimeSubgroup (c : CurveParams F) (order : Nat) (p : PointAffine F) :
    Bool :=
  let resProj : PointProj F := PointProj.Identity
  let p1Proj := PointProj.FromAffine p
  let bit_len := scalarBitLen order
  let resProj := doubleAndAddLoop c p1Proj order (bit_len + 1) resProj
  let tmp := PointAffine.FromProj resProj
  let identity : PointAffine F := PointAffine.Identity
  identity.Equal tmp

/-- GetPointFromX solves the curve equation at `x`; `none` is the `nil` result. -/
def GetPointFromX (c : CurveParams F) (ops : ElementOps F) (x : F) (choose_largest : Bool) :
    Option (PointAffine F) :=
  match computeY c ops x choose_largest with
  | none => none
  | some y => some ⟨x, y⟩

/-- The `n`-fold affine sum `P + ... + P`, starting from the identity. -/
def PointAffine.nFold (c : CurveParams F) (P : PointAffine F) : Nat → PointAffine F
  | 0 => PointAffine.Identity
  | n + 1 => PointAffine.Add c (PointAffine.nFold c P n) P

/-- No addition of two multiples of `P` whose factors sum to at most `n` divides by
zero. -/
def PointAffine.MultiplesDefined (c : CurveParams F) (P : PointAffine F) (n : Nat) : Prop :=
  ∀ i j, i + j ≤ n →
    PointAffine.AddDefined c (PointAffine.nFold c P i) (PointAffine.nFold c P j)

/-- The square class of a point: `1 - A * x^2` is a square of the base field. -/
def PointAffine.InSquareClass (c : CurveParams F) (p : PointAffine F) : Prop :=
  IsSquare (1 - c.A * p.X * p.X)

/-! ## The Bandersnatch instance

The base field of Bandersnatch is the scalar field of BLS12-381; the curve constants are
`A = -5` and `D = 138827208126141220649022263972958607803 /
171449701953573178309673572579671231137`.  They instantiate the parameters above where a
statement is evaluated on concrete points. -/

/-- No `k` with `lo ≤ k < lo + len` divides `n`, by halving the range; the first argument
bounds the number of halvings. -/
def noDivIn (n : Nat) : Nat → Nat → Nat → Bool
  | 0, lo, len => decide (len = 0) || (decide (len = 1) && decide (n % lo ≠ 0))
  | d + 1, lo, len =>
    if len ≤ 1 then decide (len = 0) || decide (n % lo ≠ 0)
    else noDivIn n d lo (len / 2) && noDivIn n d (lo + len / 2) (len - len / 2)

/-- Square-and-multiply `b ^ e mod m`; the first argument bounds the bit length of `e`. -/
def powMod (m : Nat) : Nat → Nat → Nat → Nat
  | 0, _, _ => 1
  | fuel + 1, b, e =>
    if e = 0 then 1
    else
      let h := powMod m fuel (b * b % m) (e / 2)
      if e % 2 = 1 then b * h % m else h

/-- Modelled from the spec: the modulus of the base-field element type ("arithmetic mod the
curve's base prime"); the package `fp` is not part of the sources.  For Bandersnatch it is
the order of the scalar field of BLS12-381. -/
def pBase : Nat :=
  52435875175126190479447740508185965837690552500527637822603658699938581184513

/-- The inverse of the base field, as the power `x ^ (pBase - 2)`; zero is sent to zero. -/
def invZ (x : ZMod pBase) : ZMod pBase :=
  ((powMod pBase 256 (ZMod.val x) (pBase - 2) : Nat) : ZMod pBase)

/-- Big-endian digits in base 256: the `k` low-order bytes of `n`, most significant
first. -/
def bytesBE : Nat → Nat → List Nat
  | 0, _ => []
  | k + 1, n => bytesBE k (n / 256) ++ [n % 256]

/-- The value of a big-endian byte string. -/
def fromBytesBE (l : List Nat) : Nat :=
  l.foldl (fun acc b => acc * 256 + b) 0

/-- Repeated squaring modulo `pBase`: `t ^ (2 ^ n)`. -/
def sqPow : Nat → Nat → Nat
  | 0, t => t
  | n + 1, t => sqPow n (t * t % pBase)

/-- The least `m` with `t ^ (2 ^ m) = 1`, counted from `m`; the first argument bounds the
search. -/
def sqOrder : Nat → Nat → Nat → Nat
  | 0, _, m => m
  | fuel + 1, t, m => if t = 1 then m else sqOrder fuel (t * t % pBase) (m + 1)

/-- The main loop of Tonelli-Shanks. -/
def sqrtLoop : Nat → Nat → Nat → Nat → Nat → Nat
  | 0, y, _, _, _ => y
  | fuel + 1, y, b, g, r =>
    let m := sqOrder 64 b 0
    if m = 0 then y
    else
      let t := sqPow (r - m - 1) g
      let g := t * t % pBase
      let y := y * t % pBase
      let b := b * g % pBase
      sqrtLoop fuel y b g m

/-- Tonelli-Shanks square root modulo `pBase`, where `pBase - 1 = 2 ^ 32 * s` with `s` odd
and `5` is a non-residue; `none` when `x` is not a square. -/
def sqrtNat (x : Nat) : Option Nat :=
  let s := (pBase - 1) / 2 ^ 32
  let w := powMod pBase 256 x ((s - 1) / 2)
  let y := x * w % pBase
  let b := w * y % pBase
  let g := powMod pBase 256 5 s
  let t := sqPow 31 b
  if t = 0 then some 0
  else if t = 1 then some (sqrtLoop 33 y b g 32)
  else none

/-- The buffer of 32 bytes `0x01`: it decodes to an x-coordinate with no point on the
curve. -/
def noRootBuf : List Nat := List.replicate 32 1

/-! ### The modulus is prime -/

/-- Soundness of the range check. -/
theorem noDivIn_sound (n : Nat) : ∀ (d lo len : Nat), noDivIn n d lo len = true →
    ∀ k, lo ≤ k → k < lo + len → ¬ k ∣ n := by
  intro d
  induction d with
  | zero =>
    intro lo len h k h1 h2 hdvd
    simp only [noDivIn, Bool.or_eq_true, Bool.and_eq_true, decide_eq_true_eq] at h
    rcases h with h | ⟨h, h3⟩
    · omega
    · have : k = lo := by omega
      subst this
      exact h3 (Nat.mod_eq_zero_of_dvd hdvd)
  | succ d ih =>
    intro lo len h k h1 h2 hdvd
    unfold noDivIn at h
    by_cases hl : len ≤ 1
    · simp only [hl, if_true, Bool.or_eq_true, decide_eq_true_eq] at h
      rcases h with h | h
      · omega
      · have : k = lo := by omega
        subst this
        exact h (Nat.mod_eq_zero_of_dvd hdvd)
    · simp only [hl, if_false, Bool.and_eq_true] at h
      by_cases hk : k < lo + len / 2
      · exact ih lo (len / 2) h.1 k h1 hk hdvd
      · exact ih (lo + len / 2) (len - len / 2) h.2 k (by omega) (by omega) hdvd

/-- Primality by trial division up to a bound `s` with `n < s * s`. -/
theorem prime_of_noDivIn (n s d : Nat) (h2 : 2 ≤ n) (hs : n < s * s)
    (h : noDivIn n d 2 (s - 2) = true) : Nat.Prime n := by
  rw [Nat.prime_def_le_sqrt]
  refine ⟨h2, ?_⟩
  intro m hm hle
  have hmm : m * m ≤ n := Nat.le_sqrt.1 hle
  have hms : m < s := by
    by_contra hcon
    have : s * s ≤ m * m := Nat.mul_le_mul (by omega) (by omega)
    omega
  exact noDivIn_sound n d 2 (s - 2) h m hm (by omega)

/-- The value computed by `powMod`. -/
theorem powMod_cast (m : Nat) : ∀ (fuel b e : Nat), e < 2 ^ fuel →
    ((powMod m fuel b e : Nat) : ZMod m) = (b : ZMod m) ^ e := by
  intro fuel
  induction fuel with
  | zero =>
    intro b e he
    have : e = 0 := by simpa using he
    subst this
    simp [powMod]
  | succ k ih =>
    intro b e he
    unfold powMod
    by_cases h0 : e = 0
    · simp [h0]
    · have hlt : e / 2 < 2 ^ k := by
        rw [pow_succ] at he
        omega
      have hrec := ih (b * b % m) (e / 2) hlt
      have hbb : (((b * b % m : Nat)) : ZMod m) = (b : ZMod m) ^ 2 := by
        rw [ZMod.natCast_mod]; push_cast; ring
      rw [hbb, ← pow_mul] at hrec
      simp only [h0, if_false]
      by_cases h1 : e % 2 = 1
      · simp only [h1, if_true]
        rw [ZMod.natCast_mod]; push_cast
        rw [hrec, ← pow_succ']
        congr 1; omega
      · simp only [h1, if_false]
        rw [hrec]
        congr 1; omega

set_option maxRecDepth 1000000 in
/-- A prime factor of `pBase - 1`. -/
theorem prime_2508409 : Nat.Prime 2508409 :=
  prime_of_noDivIn 2508409 1600 20 (by decide) (by decide) (by decide)

set_option maxRecDepth 1000000 in
/-- A prime factor of `pBase - 1`. -/
theorem prime_2529403 : Nat.Prime 2529403 :=
  prime_of_noDivIn 2529403 1600 20 (by decide) (by decide) (by decide)

set_option maxRecDepth 1000000 in
/-- A prime factor of `pBase - 1`. -/
theorem prime_52437899 : Nat.Prime 52437899 :=
  prime_of_noDivIn 52437899 7300 20 (by decide) (by decide) (by decide)

set_option maxRecDepth 1000000 in
/-- A prime factor of `pBase - 1`. -/
theorem prime_254760293 : Nat.Prime 254760293 :=
  prime_of_noDivIn 254760293 16000 20 (by decide) (by decide) (by decide)

/-- The factorisation of `pBase - 1`. -/
theorem pBase_sub_one : pBase - 1 =
    2 ^ 32 * 3 * 11 * 19 * 10177 * 125527 * 859267 * 906349 ^ 2 * 2508409 * 2529403 *
      52437899 * 254760293 ^ 2 := by decide

/-- Powers of `7` modulo `pBase`, through `powMod`. -/
theorem seven_pow (e c : Nat) (he : e < 2 ^ 256) (hc : powMod pBase 256 7 e = c) :
    ((7 : Nat) : ZMod pBase) ^ e = (c : ZMod pBase) := by
  rw [← hc, powMod_cast pBase 256 7 e he]

set_option maxRecDepth 100000 in
/-- One step of the Lucas test: the prime factor `r` of `pBase - 1` does not kill the
order of `7`. -/
theorem lucas_factor (r : Nat) (hr : r.Prime)
    (hne : powMod pBase 256 7 ((pBase - 1) / r) % pBase ≠ 1 % pBase)
    (q : Nat) (hq : q.Prime) (h : q ∣ r) :
    ((7 : Nat) : ZMod pBase) ^ ((pBase - 1) / q) ≠ 1 := by
  obtain rfl := (Nat.prime_dvd_prime_iff_eq hq hr).1 h
  have hb : (pBase - 1) / q < 2 ^ 256 :=
    lt_of_le_of_lt (Nat.div_le_self _ _) (by decide)
  rw [seven_pow _ _ hb rfl]
  intro h1
  apply hne
  have h2 : ((powMod pBase 256 7 ((pBase - 1) / q) : Nat) : ZMod pBase) =
      ((1 : Nat) : ZMod pBase) := h1.trans Nat.cast_one.symm
  exact (ZMod.natCast_eq_natCast_iff' _ 1 pBase).1 h2

set_option maxRecDepth 100000 in
/-- The modulus of the base field is prime (Lucas test with base 7). -/
theorem pBase_prime : Nat.Prime pBase := by
  apply lucas_primality pBase ((7 : Nat) : ZMod pBase)
  · rw [seven_pow (pBase - 1) 1 (by decide) (by decide)]
    exact Nat.cast_one
  · intro q hq hdvd
    rw [pBase_sub_one] at hdvd
    simp only [hq.dvd_mul] at hdvd
    rcases hdvd with (((((((((((h | h) | h) | h) | h) | h) | h) | h) | h) | h) | h) | h)
    · exact lucas_factor 2 Nat.prime_two (by decide) q hq (hq.dvd_of_dvd_pow h)
    · exact lucas_factor 3 (by norm_num) (by decide) q hq h
    · exact lucas_factor 11 (by norm_num) (by decide) q hq h
    · exact lucas_factor 19 (by norm_num) (by decide) q hq h
    · exact lucas_factor 10177 (by norm_num) (by decide) q hq h
    · exact lucas_factor 125527 (by norm_num) (by decide) q hq h
    · exact lucas_factor 859267 (by norm_num) (by decide) q hq h
    · exact lucas_factor 906349 (by norm_num) (by decide) q hq (hq.dvd_of_dvd_pow h)
    · exact lucas_factor 2508409 prime_2508409 (by decide) q hq h
    · exact lucas_factor 2529403 prime_2529403 (by decide) q hq h
    · exact lucas_factor 52437899 prime_52437899 (by decide) q hq h
    · exact lucas_factor 254760293 prime_254760293 (by decide) q hq (hq.dvd_of_dvd_pow h)

/-- The primality of the modulus, as an instance. -/
instance pBase_fact : Fact (Nat.Prime pBase) := ⟨pBase_prime⟩

set_option maxRecDepth 100000 in
/-- The inverse is the power `pBase - 2`. -/
theorem invZ_eq (x : ZMod pBase) : invZ x = x ^ (pBase - 2) := by
  unfold invZ
  rw [powMod_cast pBase 256 _ _ (by decide)]
  simp

/-- Fermat: a nonzero element times its inverse is one. -/
theorem invZ_mul_cancel (a : ZMod pBase) (ha : a ≠ 0) : a * invZ a = 1 := by
  rw [invZ_eq, ← pow_succ']
  have : pBase - 2 + 1 = pBase - 1 := by decide
  rw [this]
  exact ZMod.pow_card_sub_one_eq_one ha

/-- The inverse of zero is zero. -/
theorem invZ_zero : invZ 0 = 0 := by
  rw [invZ_eq]
  exact zero_pow (by decide)

/-- The base field is not trivial. -/
theorem zmod_zero_ne_one : (0 : ZMod pBase) ≠ 1 := zero_ne_one

/-! ### The field, the curve constants and some points -/

/-- Modelled from the spec: the base-field element type `fp.Element`, with "exact,
already-correct modular arithmetic"; the package `fp` is not part of the sources. -/
def Fp : Type := ZMod pBase

/-- Equality of base-field elements is decidable (`Equal`). -/
instance : DecidableEq Fp := ZMod.decidableEq pBase

/-- The field structure of `fp.Element`: arithmetic modulo `pBase`, with `Inverse`
computed as a power and `Inverse(0) = 0`. -/
instance : Field Fp :=
  { ZMod.commRing pBase with
    inv := invZ
    exists_pair_ne := ⟨(0 : ZMod pBase), (1 : ZMod pBase), zmod_zero_ne_one⟩
    mul_inv_cancel := invZ_mul_cancel
    inv_zero := invZ_zero
    nnqsmul := _
    qsmul := _ }

/-- Modelled from the spec: the curve-parameter object `edwards` ("coefficients `A`, `D` of
the curve equation ... supplied as named constants from a curve-parameter object"), which
is declared outside `point.go`.  The values are those of Bandersnatch. -/
def edwards : CurveParams Fp :=
  ⟨-5, 45022363124591815672509500913686876175488063829319466900776701791074614335719⟩

/-- Modelled from the spec: the "prime order of the curve's largest prime-order subgroup",
the field `Order` of the curve-parameter object, declared outside `point.go`.  The value
is that of Bandersnatch; the cofactor is 4. -/
def rOrder : Nat :=
  13108968793781547619861935127046491459309155893440570251786403306729687672801

/-- Modelled from the spec: the methods of the base-field element type that `point.go`
consumes besides field arithmetic ("byte encode/decode", "square root (reporting
non-existence)", "is lexicographically larger" predicate); the package `fp` is not part of
the sources.  `Bytes` is the 32-byte big-endian encoding of the canonical value, `SetBytes`
reads a big-endian value and reduces it, `Sqrt` is Tonelli-Shanks, and an element is
lexicographically largest when its value exceeds `(pBase - 1) / 2`. -/
def fpOps : ElementOps Fp where
  Bytes := fun x => bytesBE 32 (ZMod.val (n := pBase) x)
  SetBytes := fun l => ((fromBytesBE l : Nat) : ZMod pBase)
  Sqrt := fun x => (sqrtNat (ZMod.val (n := pBase) x)).map (fun r => ((r : Nat) : ZMod pBase))
  LexicographicallyLargest := fun x => decide ((pBase - 1) / 2 < ZMod.val (n := pBase) x)

/-- A generator of the prime-order subgroup of Bandersnatch. -/
def genPoint : PointAffine Fp :=
  ⟨18886178867200960497001835917649091219057080094937609519140440539760939937304,
   19188667384257783945677642223292697773471335439753913231509108946878080696678⟩

/-- The order-two point `(0, -1)` of Bandersnatch. -/
def orderTwoPoint : PointAffine Fp := ⟨0, -1⟩

/-- A point of Bandersnatch outside the prime-order subgroup: the sum of the generator with
it has a vanishing denominator `deny`. -/
def excPoint : PointAffine Fp :=
  ⟨36073403901733791628036538608855607833048265717419279894770207984109002359124,
   18601349792348393412566423773165753240775915717680753940450614659073776275971⟩

/-- A square root of `D * (D - A)` in the base field of Bandersnatch. -/
def sqrtDDA : Fp :=
  31799168549900052593129494840485122612704459649279055853033024375259633198257

/-- A square root of `A * D` in the base field of Bandersnatch. -/
def sqrtAD : Fp :=
  29924693612830282643192990051342527749946520585867904372215307804401274016651

/-! ## Lemmas on the codec -/

/-- A compressed point has 32 bytes. -/
theorem sizePointCompressed_eq : sizePointCompressed = 32 := rfl

/-- What the swap loop leaves at each index. -/
theorem swapLoop_getElem? : ∀ (fuel i j : Nat) (y : List Nat) (k : Nat),
    j < y.length → j < i + 2 * fuel →
    (swapLoop fuel i j y)[k]? = if i ≤ k ∧ k ≤ j then y[i + j - k]? else y[k]? := by
  intro fuel
  induction fuel with
  | zero =>
    intro i j y k _ hf
    have : ¬ (i ≤ k ∧ k ≤ j) := by omega
    simp [swapLoop, this]
  | succ f ih =>
    intro i j y k hj hf
    unfold swapLoop
    by_cases hij : i < j
    · simp only [hij, if_true]
      rw [ih (i + 1) (j - 1) _ k (by simp; omega) (by omega)]
      have hgj : y.getD j 0 = y[j] := by simp [List.getD_eq_getElem?_getD, hj]
      have hgi : y.getD i 0 = y[i] := by
        simp [List.getD_eq_getElem?_getD, (by omega : i < y.length)]
      by_cases h1 : i + 1 ≤ k ∧ k ≤ j - 1
      · have h2 : i ≤ k ∧ k ≤ j := by omega
        simp only [h1, h2, and_self, if_true]
        rw [List.getElem?_set_ne (by omega), List.getElem?_set_ne (by omega)]
        congr 1; omega
      · simp only [h1, if_false]
        by_cases hki : k = i
        · subst hki
          have h2 : k ≤ k ∧ k ≤ j := by omega
          simp only [h2, and_self, if_true]
          rw [List.getElem?_set_ne (by omega), List.getElem?_set_self (by omega), hgj]
          simp [hj]
        · by_cases hkj : k = j
          · subst hkj
            have h2 : i ≤ k ∧ k ≤ k := by omega
            simp only [h2, and_self, if_true]
            rw [List.getElem?_set_self (by simp; omega), hgi]
            simp [(by omega : i < y.length)]
          · have h2 : ¬ (i ≤ k ∧ k ≤ j) := by omega
            simp only [h2, if_false]
            rw [List.getElem?_set_ne (by omega), List.getElem?_set_ne (by omega)]
    · simp only [hij, if_false]
      by_cases h2 : i ≤ k ∧ k ≤ j
      · simp only [h2, and_self, if_true]
        congr 1; omega
      · simp only [h2, if_false]

/-- On a 32-byte array the swap loop is list reversal. -/
theorem swapLoop_eq_reverse (l : List Nat) (h : l.length = 32) :
    swapLoop sizePointCompressed 0 (sizePointCompressed - 1) l = l.reverse := by
  apply List.ext_getElem?
  intro k
  have h32 : sizePointCompressed = 32 := rfl
  rw [h32, swapLoop_getElem? 32 0 31 l k (by omega) (by omega)]
  by_cases hk : k < 32
  · have h2 : 0 ≤ k ∧ k ≤ 31 := by omega
    simp only [h2, and_self, if_true]
    rw [List.getElem?_reverse (by omega)]
    congr 1; omega
  · have h2 : ¬ (0 ≤ k ∧ k ≤ 31) := by omega
    simp only [h2, if_false]
    rw [List.getElem?_eq_none (by omega), List.getElem?_eq_none (by simp; omega)]

/-- Setting and clearing the flag bit of a byte whose top bit is free. -/
theorem flag_bits : ∀ b, b < 128 →
    ((128 &&& (b ||| 128)) >>> 7 = 1) ∧ ((b ||| 128) &&& 127 = b) ∧
    ((128 &&& (b ||| 0)) >>> 7 = 0) ∧ ((b ||| 0) &&& 127 = b) := by
  decide

/-- The equation tested by `IsOnCurve`. -/
theorem isOnCurve_iff (c : CurveParams F) (p : PointAffine F) :
    p.IsOnCurve c = true ↔ p.X * p.X * c.A + p.Y * p.Y = 1 + p.X * p.X * p.Y * p.Y * c.D := by
  simp [PointAffine.IsOnCurve]

/-- The array returned by `Bytes`: the encoding of `X` with the flag or-ed into its first
byte, reversed. -/
theorem bytes_eq (ops : ElementOps F) (P : PointAffine F)
    (hlen : (ops.Bytes P.X).length = sizePointCompressed) :
    P.Bytes ops = ((ops.Bytes P.X).set 0 ((ops.Bytes P.X).getD 0 0 |||
      (if ops.LexicographicallyLargest P.Y then 128 else 0))).reverse := by
  unfold PointAffine.Bytes
  simp only []
  rw [swapLoop_eq_reverse _ (by simpa using hlen)]
  cases ops.LexicographicallyLargest P.Y <;> rfl

/-- Decoding an encoded point reduces to solving the curve equation at its `X` with the
sign flag of its `Y`. -/
theorem setBytes_bytes (c : CurveParams F) (ops : ElementOps F) (P p0 : PointAffine F)
    (hlen : (ops.Bytes P.X).length = sizePointCompressed)
    (htop : (ops.Bytes P.X).getD 0 0 < 128)
    (hdec : ops.SetBytes (ops.Bytes P.X) = P.X) :
    p0.SetBytes c ops (P.Bytes ops) =
      match computeY c ops P.X (ops.LexicographicallyLargest P.Y) with
      | none => .panicked
      | some y => .returned ⟨sizePointCompressed, none, ⟨P.X, y⟩⟩ := by
  have h32 : (ops.Bytes P.X).length = 32 := hlen
  obtain ⟨b0, rest, hB⟩ : ∃ b0 rest, ops.Bytes P.X = b0 :: rest := by
    cases hb : ops.Bytes P.X with
    | nil => rw [hb] at h32; simp at h32
    | cons b0 rest => exact ⟨b0, rest, rfl⟩
  have hb0 : b0 < 128 := by simpa [hB] using htop
  have hrest : rest.length = 31 := by
    rw [hB] at h32; simpa using h32
  obtain ⟨f1, f2, f3, f4⟩ := flag_bits b0 hb0
  have hbytes := bytes_eq ops P hlen
  rw [hB] at hbytes hdec
  simp only [List.set_cons_zero, List.getD_cons_zero] at hbytes
  unfold PointAffine.SetBytes
  have hlenB : (P.Bytes ops).length = 32 := by
    rw [hbytes]; simp [hrest]
  have hnot : ¬ (P.Bytes ops).length < sizePointCompressed := by
    rw [hlenB, sizePointCompressed_eq]; omega
  simp only [hnot, if_false]
  have htake : (P.Bytes ops).take sizePointCompressed = P.Bytes ops :=
    List.take_of_length_le (by rw [hlenB, sizePointCompressed_eq])
  rw [htake, swapLoop_eq_reverse _ hlenB, hbytes, List.reverse_reverse]
  simp only [List.set_cons_zero, List.getD_cons_zero, mCompressedNegative, mUnmask]
  cases hl : ops.LexicographicallyLargest P.Y
  · simp only [Bool.false_eq_true, if_false]
    rw [f3, f4, hdec]
    simp
  · simp only [if_true]
    rw [f1, f2, hdec]
    simp

/-- On a curve point the solver recovers `Y` from `X` and the sign flag of `Y`. -/
theorem computeY_of_isOnCurve (c : CurveParams F) (ops : ElementOps F) (P : PointAffine F)
    (hD : ¬ IsSquare c.D)
    (hP : P.IsOnCurve c = true)
    (hsqrt : ∃ r, ops.Sqrt (P.Y * P.Y) = some r ∧ r * r = P.Y * P.Y)
    (hlex : P.Y ≠ 0 →
      ops.LexicographicallyLargest (-P.Y) = !ops.LexicographicallyLargest P.Y) :
    computeY c ops P.X (ops.LexicographicallyLargest P.Y) = some P.Y := by
  rw [isOnCurve_iff] at hP
  have hden : P.X * P.X * c.D - 1 ≠ 0 := by
    intro h0
    apply hD
    have hx : P.X ≠ 0 := by
      intro hx
      rw [hx] at h0
      simp at h0
    refine ⟨P.X⁻¹, ?_⟩
    field_simp
    linear_combination h0
  have hval : (P.X * P.X * c.A - 1) / (P.X * P.X * c.D - 1) = P.Y * P.Y := by
    rw [div_eq_iff hden]
    linear_combination hP
  obtain ⟨r, hr, hrr⟩ := hsqrt
  unfold computeY
  simp only []
  rw [hval, hr]
  simp only []
  have hcases : r = P.Y ∨ r = -P.Y := by
    have : (r - P.Y) * (r + P.Y) = 0 := by linear_combination hrr
    rcases mul_eq_zero.1 this with h | h
    · left; linear_combination h
    · right; linear_combination h
  rcases hcases with h | h
  · subst h
    simp
  · by_cases hy : P.Y = 0
    · have : r = P.Y := by rw [h, hy]; simp
      subst this
      simp
    · rw [h, hlex hy]
      simp

/-- On a buffer that is long enough, `SetBytes` is the solver applied to the decoded
x-coordinate and flag. -/
theorem setBytes_of_le (c : CurveParams F) (ops : ElementOps F) (p : PointAffine F)
    (buf : List Nat) (hlen : sizePointCompressed ≤ buf.length) :
    p.SetBytes c ops buf =
      match computeY c ops (decodedX ops buf) (decodedFlag buf) with
      | none => .panicked
      | some y => .returned ⟨sizePointCompressed, none, ⟨decodedX ops buf, y⟩⟩ := by
  unfold PointAffine.SetBytes decodedX decodedFlag
  have hnot : ¬ buf.length < sizePointCompressed := by omega
  simp only [hnot, if_false]

/-- The solver returns `nil` exactly when `Sqrt` does. -/
theorem computeY_eq_none_iff (c : CurveParams F) (ops : ElementOps F) (x : F) (flag : Bool) :
    computeY c ops x flag = none ↔
      ops.Sqrt ((x * x * c.A - 1) / (x * x * c.D - 1)) = none := by
  unfold computeY
  simp only []
  cases ops.Sqrt ((x * x * c.A - 1) / (x * x * c.D - 1)) with
  | none => simp
  | some y => by_cases h : flag = ops.LexicographicallyLargest y <;> simp [h]

/-! ## Facts about the Bandersnatch constants -/

set_option maxRecDepth 100000 in
/-- Euler's criterion modulo `pBase`, evaluated by square-and-multiply. -/
theorem zmod_not_isSquare (a : ZMod pBase) (ha : a ≠ 0)
    (h : powMod pBase 256 (ZMod.val a) (pBase / 2) = pBase - 1) : ¬ IsSquare a := by
  intro hsq
  have hpow := (ZMod.euler_criterion pBase ha).1 hsq
  have hc := powMod_cast pBase 256 (ZMod.val a) (pBase / 2) (by decide)
  rw [h, ZMod.natCast_zmod_val] at hc
  rw [← hc] at hpow
  have h1 : ((pBase - 1 : Nat) : ZMod pBase) = ((1 : Nat) : ZMod pBase) :=
    hpow.trans Nat.cast_one.symm
  have h2 := (ZMod.natCast_eq_natCast_iff' (pBase - 1) 1 pBase).1 h1
  revert h2
  decide

/-- Euler's criterion in the base field. -/
theorem fp_not_isSquare (a : Fp) (ha : a ≠ 0)
    (h : powMod pBase 256 (ZMod.val (show ZMod pBase from a)) (pBase / 2) = pBase - 1) :
    ¬ IsSquare a := by
  intro hsq
  obtain ⟨r, hr⟩ := hsq
  exact zmod_not_isSquare a ha h ⟨r, hr⟩

set_option maxRecDepth 100000 in
/-- The coefficient `D` of Bandersnatch is not a square. -/
theorem edwards_D_not_isSquare : ¬ IsSquare edwards.D :=
  fp_not_isSquare _ (by decide) (by decide)

/-! ## The codec claims -/

/-- C1: compression round trip.  For every affine point `P` satisfying the curve equation,
when the field encoding of `P.X` is 32 bytes long with a free top bit in its first byte and
is decoded back to `P.X` by the field decoder, `Sqrt` returns a root of the square
`P.Y * P.Y`, and negating a nonzero `P.Y` flips `LexicographicallyLargest`, then `SetBytes`
on the array returned by `P.Bytes()` succeeds, reports 32 bytes read and leaves the
receiver equal to `P`.  The coefficient `D` is assumed not to be a square, as for
Bandersnatch. -/
theorem setBytes_bytes_roundtrip (c : CurveParams F) (ops : ElementOps F)
    (P p0 : PointAffine F)
    (hD : ¬ IsSquare c.D)
    (hP : P.IsOnCurve c = true)
    (hlen : (ops.Bytes P.X).length = sizePointCompressed)
    (htop : (ops.Bytes P.X).getD 0 0 < 128)
    (hdec : ops.SetBytes (ops.Bytes P.X) = P.X)
    (hsqrt : ∃ r, ops.Sqrt (P.Y * P.Y) = some r ∧ r * r = P.Y * P.Y)
    (hlex : P.Y ≠ 0 →
      ops.LexicographicallyLargest (-P.Y) = !ops.LexicographicallyLargest P.Y) :
    p0.SetBytes c ops (P.Bytes ops) = .returned ⟨32, none, P⟩ := by
  rw [setBytes_bytes c ops P p0 hlen htop hdec,
    computeY_of_isOnCurve c ops P hD hP hsqrt hlex]
  rfl

set_option maxRecDepth 100000 in
/-- C1, at the generator of Bandersnatch with the big-endian field codec. -/
theorem setBytes_bytes_roundtrip_witness :
    PointAffine.SetBytes edwards fpOps PointAffine.Identity (genPoint.Bytes fpOps) =
      .returned ⟨32, none, genPoint⟩ :=
  setBytes_bytes_roundtrip edwards fpOps genPoint PointAffine.Identity
    edwards_D_not_isSquare (by decide) (by decide) (by decide) (by decide)
    ⟨-genPoint.Y, by decide, by decide⟩ (fun _ => by decide)

/-- C2: on a buffer of at least 32 bytes whose decoded x-coordinate has no root, that is
`Sqrt((A*x^2 - 1)/(D*x^2 - 1))` is `nil`, `SetBytes` dereferences the `nil` returned by the
solver: the call panics, and so does `Unmarshal`; no error value reaches the caller. -/
theorem setBytes_no_root_panics (c : CurveParams F) (ops : ElementOps F)
    (p : PointAffine F) (buf : List Nat)
    (hlen : sizePointCompressed ≤ buf.length)
    (hroot : ops.Sqrt ((decodedX ops buf * decodedX ops buf * c.A - 1) /
      (decodedX ops buf * decodedX ops buf * c.D - 1)) = none) :
    p.SetBytes c ops buf = .panicked ∧ p.Unmarshal c ops buf = .panicked := by
  have h := (computeY_eq_none_iff c ops (decodedX ops buf) (decodedFlag buf)).2 hroot
  have h1 : p.SetBytes c ops buf = .panicked := by
    rw [setBytes_of_le c ops p buf hlen, h]
  refine ⟨h1, ?_⟩
  unfold PointAffine.Unmarshal
  rw [h1]

set_option maxRecDepth 100000 in
/-- C2, at the buffer of 32 bytes `0x01` on Bandersnatch. -/
theorem setBytes_no_root_panics_witness :
    noRootBuf.length = 32 ∧
    PointAffine.SetBytes edwards fpOps PointAffine.Identity noRootBuf = .panicked ∧
    PointAffine.Unmarshal edwards fpOps PointAffine.Identity noRootBuf = .panicked :=
  ⟨by decide,
    setBytes_no_root_panics edwards fpOps PointAffine.Identity noRootBuf (by decide)
      (by decide)⟩

/-- C3: on a buffer shorter than 32 bytes `SetBytes` returns 0 bytes read with
`io.ErrShortBuffer` and the receiver unchanged; on a buffer of at least 32 bytes for which
the solver finds a `y`, it returns exactly 32 bytes read and no error. -/
theorem setBytes_length (c : CurveParams F) (ops : ElementOps F) (p : PointAffine F)
    (buf : List Nat) :
    (buf.length < sizePointCompressed →
      p.SetBytes c ops buf = .returned ⟨0, some .ErrShortBuffer, p⟩) ∧
    (sizePointCompressed ≤ buf.length →
      ∀ y, computeY c ops (decodedX ops buf) (decodedFlag buf) = some y →
        p.SetBytes c ops buf = .returned ⟨32, none, ⟨decodedX ops buf, y⟩⟩) := by
  constructor
  · intro h
    unfold PointAffine.SetBytes
    simp only [h, if_true]
  · intro h y hy
    rw [setBytes_of_le c ops p buf h, hy]
    rfl

set_option maxRecDepth 100000 in
/-- C3, at a 3-byte buffer and at the 33-byte buffer made of the encoding of the
generator followed by one more byte. -/
theorem setBytes_length_witness :
    PointAffine.SetBytes edwards fpOps genPoint [1, 2, 3] =
      .returned ⟨0, some .ErrShortBuffer, genPoint⟩ ∧
    PointAffine.SetBytes edwards fpOps PointAffine.Identity (genPoint.Bytes fpOps ++ [7]) =
      .returned ⟨32, none, genPoint⟩ :=
  ⟨(setBytes_length edwards fpOps genPoint [1, 2, 3]).1 (by decide),
    (setBytes_length edwards fpOps PointAffine.Identity (genPoint.Bytes fpOps ++ [7])).2
      (by decide) genPoint.Y (by decide)⟩

set_option maxRecDepth 100000 in
/-- C4 as stated fails: the point `(0, -1)` lies on Bandersnatch and its `Y` is the
lexicographically larger root, yet bit `0x80` of the first byte of its encoding is clear. -/
theorem bytes_flag_first_byte_counterexample :
    orderTwoPoint.IsOnCurve edwards = true ∧
    fpOps.LexicographicallyLargest orderTwoPoint.Y = true ∧
    (orderTwoPoint.Bytes fpOps).getD 0 0 &&& 0x80 = 0 := by
  decide

/-- C4, amended: for every affine point `P` whose `X` has a 32-byte field encoding with a
free top bit in its first byte, bit `0x80` of the last byte (index 31) of the array
returned by `P.Bytes()` is set exactly when `P.Y` is the lexicographically larger root,
and clear otherwise. -/
theorem bytes_flag_last_byte (ops : ElementOps F) (P : PointAffine F)
    (hlen : (ops.Bytes P.X).length = sizePointCompressed)
    (htop : (ops.Bytes P.X).getD 0 0 < 128) :
    ((P.Bytes ops).getD (sizePointCompressed - 1) 0 &&& 0x80 = 0x80 ↔
      ops.LexicographicallyLargest P.Y = true) ∧
    ((P.Bytes ops).getD (sizePointCompressed - 1) 0 &&& 0x80 = 0 ↔
      ops.LexicographicallyLargest P.Y = false) := by
  have h32 : (ops.Bytes P.X).length = 32 := hlen
  obtain ⟨b0, rest, hB⟩ : ∃ b0 rest, ops.Bytes P.X = b0 :: rest := by
    cases hb : ops.Bytes P.X with
    | nil => rw [hb] at h32; simp at h32
    | cons b0 rest => exact ⟨b0, rest, rfl⟩
  have hb0 : b0 < 128 := by simpa [hB] using htop
  have hrest : rest.length = 31 := by
    rw [hB] at h32; simpa using h32
  have hbytes := bytes_eq ops P hlen
  rw [hB] at hbytes
  simp only [List.set_cons_zero, List.getD_cons_zero] at hbytes
  have hlast : (P.Bytes ops).getD (sizePointCompressed - 1) 0 =
      (b0 ||| (if ops.LexicographicallyLargest P.Y then 128 else 0)) := by
    rw [hbytes, sizePointCompressed_eq, List.getD_eq_getElem?_getD,
      List.getElem?_reverse (by simp [hrest])]
    simp [hrest]
  rw [hlast]
  have hbits : ∀ b, b < 128 →
      ((b ||| 128) &&& 128 = 128) ∧ ((b ||| 0) &&& 128 = 0) := by decide
  obtain ⟨g1, g2⟩ := hbits b0 hb0
  cases hl : ops.LexicographicallyLargest P.Y
  · simp only [Bool.false_eq_true, if_false, g2]
    decide
  · simp only [if_true, g1]
    decide

set_option maxRecDepth 100000 in
/-- C4 amended, at the point `(0, -1)` of Bandersnatch. -/
theorem bytes_flag_last_byte_witness :
    (orderTwoPoint.Bytes fpOps).getD (sizePointCompressed - 1) 0 &&& 0x80 = 0x80 :=
  ((bytes_flag_last_byte fpOps orderTwoPoint (by decide) (by decide)).1).2 (by decide)

/-! ## The group law -/

/-- The coordinates returned by `Add`, over the denominators `denx` and `deny`. -/
theorem add_eq (c : CurveParams F) (p1 p2 : PointAffine F) :
    PointAffine.Add c p1 p2 =
      ⟨(p1.X * p2.Y + p1.Y * p2.X) / PointAffine.denx c p1 p2,
        (p1.Y * p2.Y - p1.X * p2.X * c.A) / PointAffine.deny c p1 p2⟩ := rfl

/-- The method `Equal` decides equality of points. -/
theorem equal_iff (p q : PointAffine F) : p.Equal q = true ↔ p = q := by
  cases p
  cases q
  simp [PointAffine.Equal]

/-- The conversion `FromProj` divides by `Z`; the fast path for `Z = 1` gives the same
point. -/
theorem fromProj_eq (p : PointProj F) :
    PointAffine.FromProj p = ⟨p.X / p.Z, p.Y / p.Z⟩ := by
  unfold PointAffine.FromProj
  by_cases h : p.Z = 1
  · simp [h]
  · simp [h, div_eq_mul_inv]

/-- The cleared-denominator form of associativity, x-coordinate: a combination of the
three curve equations. -/
theorem assoc_poly_x (a d x1 y1 x2 y2 x3 y3 : F)
    (e1 : x1 * x1 * a + y1 * y1 = 1 + x1 * x1 * y1 * y1 * d)
    (e2 : x2 * x2 * a + y2 * y2 = 1 + x2 * x2 * y2 * y2 * d)
    (e3 : x3 * x3 * a + y3 * y3 = 1 + x3 * x3 * y3 * y3 * d) :
    ((x1*y2 + y1*x2)*(1 - d*x1*x2*y1*y2)*y3
     + (y1*y2 - a*x1*x2)*(1 + d*x1*x2*y1*y2)*x3) *
      ((1 + d*x2*x3*y2*y3)*(1 - d*x2*x3*y2*y3)
       + d*x1*y1*(x2*y3 + y2*x3)*(y2*y3 - a*x2*x3)) =
    (x1*(y2*y3 - a*x2*x3)*(1 + d*x2*x3*y2*y3)
     + y1*(x2*y3 + y2*x3)*(1 - d*x2*x3*y2*y3)) *
      ((1 + d*x1*x2*y1*y2)*(1 - d*x1*x2*y1*y2)
       + d*(x1*y2 + y1*x2)*(y1*y2 - a*x1*x2)*x3*y3) := by
  linear_combination
    (-a^2*d*x1*x2^4*y2*x3^2*y3 - a^2*d*x1*x2^3*y2^2*x3^3 + a*d^2*x1*x2^4*y2^3*x3^2*y3
      + a*d*x1*x2^3*y2^2*x3 - a*d*y1*x2^4*y2*x3*y3^2 + a*d*y1*x2^2*y2^3*x3^3
      - d^2*x1*x2^3*y2^4*x3*y3^2 + d^2*y1*x2^4*y2^3*x3*y3^2 + d^2*y1*x2^3*y2^4*x3^2*y3
      + d*x1*x2^2*y2^3*y3^3 - d*x1*x2^2*y2^3*y3 + d*x1*x2*y2^4*x3*y3^2 + d*y1*x2^3*y2^2*y3^3
      - d*y1*x2^3*y2^2*y3 - d*y1*x2^2*y2^3*x3 - d*y1*x2*y2^4*x3^2*y3) * e1 +
    (-a^3*x1^3*x2*x3^3 + a^2*d*x1^3*x2^2*y2*x3^2*y3 + a^2*d*x1^3*x2*x3^3*y3^2
      - a^2*x1^3*x2*x3*y3^2 + a^2*x1^3*x2*x3 + a^2*x1^3*y2*x3^2*y3 + a^2*x1^2*y1*x2*x3^2*y3
      + a^2*x1^2*y1*y2*x3^3 - a^2*x1*y1^2*x2*x3^3 + a^2*x1*x2*x3^3
      - a*d^2*x1^2*y1*x2^2*y2*x3^3*y3^2 - a*d*x1^3*x2*y2^2*x3*y3^2 - a*d*x1^3*y2*x3^2*y3^3
      + a*d*x1^2*y1*x2^2*y2*x3*y3^2 + a*d*x1^2*y1*x2*y2^2*x3^2*y3 - a*d*x1^2*y1*x2*x3^2*y3^3
      - a*d*x1^2*y1*y2*x3^3*y3^2 + a*d*x1*y1^2*x2^2*y2*x3^2*y3 + a*d*x1*y1^2*x2*x3^3*y3^2
      - a*d*x1*x2^2*y2*x3^2*y3 - a*d*x1*x2*x3^3*y3^2 + a*x1^3*y2*y3^3 - a*x1^3*y2*y3
      + a*x1^2*y1*x2*y3^3 - a*x1^2*y1*x2*y3 + a*x1^2*y1*y2*x3*y3^2 - a*x1^2*y1*y2*x3
      - a*x1*y1^2*x2*x3*y3^2 + a*x1*y1^2*x2*x3 + a*x1*y1^2*y2*x3^2*y3 + a*x1*x2*x3*y3^2
      - a*x1*x2*x3 - a*x1*y2*x3^2*y3 + a*y1^3*x2*x3^2*y3 + a*y1^3*y2*x3^3 - a*y1*x2*x3^2*y3
      - a*y1*y2*x3^3 - d^2*x1^2*y1*x2*y2^2*x3^2*y3^3 - d^2*x1*y1^2*x2^2*y2*x3^2*y3^3
      + d^2*x1*y1^2*x2*y2^2*x3^3*y3^2 - d*x1*y1^2*x2*y2^2*x3*y3^2 - d*x1*y1^2*y2*x3^2*y3^3
      + d*x1*x2*y2^2*x3*y3^2 + d*x1*y2*x3^2*y3^3 + d*y1^3*x2^2*y2*x3*y3^2
      + d*y1^3*x2*y2^2*x3^2*y3 - d*y1^3*x2*x3^2*y3^3 - d*y1^3*y2*x3^3*y3^2
      - d*y1*x2^2*y2*x3*y3^2 - d*y1*x2*y2^2*x3^2*y3 + d*y1*x2*x3^2*y3^3 + d*y1*y2*x3^3*y3^2
      + x1*y1^2*y2*y3^3 - x1*y1^2*y2*y3 - x1*y2*y3^3 + x1*y2*y3 + y1^3*x2*y3^3 - y1^3*x2*y3
      + y1^3*y2*x3*y3^2 - y1^3*y2*x3 - y1*x2*y3^3 + y1*x2*y3 - y1*y2*x3*y3^2 + y1*y2*x3) * e2 +
    (a^3*x1^3*x2^3*x3 - a^2*x1^3*x2^2*y2*y3 + a^2*x1^3*x2*y2^2*x3 - a^2*x1^3*x2*x3
      - a^2*x1^2*y1*x2^3*y3 - a^2*x1^2*y1*x2^2*y2*x3 + a^2*x1*y1^2*x2^3*x3 - a^2*x1*x2^3*x3
      + a*d*x1^2*y1*x2^2*y2*x3 - a*x1^3*y2^3*y3 + a*x1^3*y2*y3 - a*x1^2*y1*x2*y2^2*y3
      + a*x1^2*y1*x2*y3 - a*x1^2*y1*y2^3*x3 + a*x1^2*y1*y2*x3 - a*x1*y1^2*x2^2*y2*y3
      + a*x1*y1^2*x2*y2^2*x3 - a*x1*y1^2*x2*x3 + a*x1*x2^2*y2*y3 - a*x1*x2*y2^2*x3
      + a*x1*x2*x3 - a*y1^3*x2^3*y3 - a*y1^3*x2^2*y2*x3 + a*y1*x2^3*y3 + a*y1*x2^2*y2*x3
      + d*x1^2*y1*x2*y2^2*y3 + d*x1*y1^2*x2^2*y2*y3 - d*x1*y1^2*x2*y2^2*x3 - x1*y1^2*y2^3*y3
      + x1*y1^2*y2*y3 + x1*y2^3*y3 - x1*y2*y3 - y1^3*x2*y2^2*y3 + y1^3*x2*y3 - y1^3*y2^3*x3
      + y1^3*y2*x3 + y1*x2*y2^2*y3 - y1*x2*y3 + y1*y2^3*x3 - y1*y2*x3) * e3

/-- The cleared-denominator form of associativity, y-coordinate: a combination of the
three curve equations. -/
theorem assoc_poly_y (a d x1 y1 x2 y2 x3 y3 : F)
    (e1 : x1 * x1 * a + y1 * y1 = 1 + x1 * x1 * y1 * y1 * d)
    (e2 : x2 * x2 * a + y2 * y2 = 1 + x2 * x2 * y2 * y2 * d)
    (e3 : x3 * x3 * a + y3 * y3 = 1 + x3 * x3 * y3 * y3 * d) :
    ((y1*y2 - a*x1*x2)*(1 + d*x1*x2*y1*y2)*y3
     - a*(x1*y2 + y1*x2)*(1 - d*x1*x2*y1*y2)*x3) *
      ((1 + d*x2*x3*y2*y3)*(1 - d*x2*x3*y2*y3)
       - d*x1*y1*(x2*y3 + y2*x3)*(y2*y3 - a*x2*x3)) =
    (y1*(y2*y3 - a*x2*x3)*(1 + d*x2*x3*y2*y3)
     - a*x1*(x2*y3 + y2*x3)*(1 - d*x2*x3*y2*y3)) *
      ((1 + d*x1*x2*y1*y2)*(1 - d*x1*x2*y1*y2)
       - d*(x1*y2 + y1*x2)*(y1*y2 - a*x1*x2)*x3*y3) := by
  linear_combination
    (a^2*d*x1*x2^4*y2*x3*y3^2 - a^2*d*x1*x2^2*y2^3*x3^3 - a^2*d*y1*x2^4*y2*x3^2*y3
      - a^2*d*y1*x2^3*y2^2*x3^3 - a*d^2*x1*x2^4*y2^3*x3*y3^2 - a*d^2*x1*x2^3*y2^4*x3^2*y3
      + a*d^2*y1*x2^4*y2^3*x3^2*y3 - a*d*x1*x2^3*y2^2*y3^3 + a*d*x1*x2^3*y2^2*y3
      + a*d*x1*x2^2*y2^3*x3 + a*d*x1*x2*y2^4*x3^2*y3 + a*d*y1*x2^3*y2^2*x3
      - d^2*y1*x2^3*y2^4*x3*y3^2 + d*y1*x2^2*y2^3*y3^3 - d*y1*x2^2*y2^3*y3
      + d*y1*x2*y2^4*x3*y3^2) * e1 +
    (-a^3*x1^3*x2*x3^2*y3 - a^3*x1^3*y2*x3^3 - a^3*x1^2*y1*x2*x3^3
      - a^2*d*x1^3*x2^2*y2*x3*y3^2 - a^2*d*x1^3*x2*y2^2*x3^2*y3 + a^2*d*x1^3*x2*x3^2*y3^3
      + a^2*d*x1^3*y2*x3^3*y3^2 + a^2*d*x1^2*y1*x2^2*y2*x3^2*y3 + a^2*d*x1^2*y1*x2*x3^3*y3^2
      - a^2*x1^3*x2*y3^3 + a^2*x1^3*x2*y3 - a^2*x1^3*y2*x3*y3^2 + a^2*x1^3*y2*x3
      - a^2*x1^2*y1*x2*x3*y3^2 + a^2*x1^2*y1*x2*x3 + a^2*x1^2*y1*y2*x3^2*y3
      - a^2*x1*y1^2*x2*x3^2*y3 - a^2*x1*y1^2*y2*x3^3 + a^2*x1*x2*x3^2*y3 + a^2*x1*y2*x3^3
      - a^2*y1^3*x2*x3^3 + a^2*y1*x2*x3^3 - a*d^2*x1^2*y1*x2^2*y2*x3^2*y3^3
      + a*d^2*x1^2*y1*x2*y2^2*x3^3*y3^2 + a*d^2*x1*y1^2*x2^2*y2*x3^3*y3^2
      - a*d*x1^2*y1*x2*y2^2*x3*y3^2 - a*d*x1^2*y1*y2*x3^2*y3^3 - a*d*x1*y1^2*x2^2*y2*x3*y3^2
      - a*d*x1*y1^2*x2*y2^2*x3^2*y3 + a*d*x1*y1^2*x2*x3^2*y3^3 + a*d*x1*y1^2*y2*x3^3*y3^2
      + a*d*x1*x2^2*y2*x3*y3^2 + a*d*x1*x2*y2^2*x3^2*y3 - a*d*x1*x2*x3^2*y3^3
      - a*d*x1*y2*x3^3*y3^2 + a*d*y1^3*x2^2*y2*x3^2*y3 + a*d*y1^3*x2*x3^3*y3^2
      - a*d*y1*x2^2*y2*x3^2*y3 - a*d*y1*x2*x3^3*y3^2 + a*x1^2*y1*y2*y3^3 - a*x1^2*y1*y2*y3
      - a*x1*y1^2*x2*y3^3 + a*x1*y1^2*x2*y3 - a*x1*y1^2*y2*x3*y3^2 + a*x1*y1^2*y2*x3
      + a*x1*x2*y3^3 - a*x1*x2*y3 + a*x1*y2*x3*y3^2 - a*x1*y2*x3 - a*y1^3*x2*x3*y3^2
      + a*y1^3*x2*x3 + a*y1^3*y2*x3^2*y3 + a*y1*x2*x3*y3^2 - a*y1*x2*x3 - a*y1*y2*x3^2*y3
      + d^2*x1*y1^2*x2*y2^2*x3^2*y3^3 - d*y1^3*x2*y2^2*x3*y3^2 - d*y1^3*y2*x3^2*y3^3
      + d*y1*x2*y2^2*x3*y3^2 + d*y1*y2*x3^2*y3^3 + y1^3*y2*y3^3 - y1^3*y2*y3 - y1*y2*y3^3
      + y1*y2*y3) * e2 +
    (a^3*x1^3*x2^3*y3 + a^3*x1^3*x2^2*y2*x3 + a^3*x1^2*y1*x2^3*x3 + a^2*x1^3*x2*y2^2*y3
      - a^2*x1^3*x2*y3 + a^2*x1^3*y2^3*x3 - a^2*x1^3*y2*x3 - a^2*x1^2*y1*x2^2*y2*y3
      + a^2*x1^2*y1*x2*y2^2*x3 - a^2*x1^2*y1*x2*x3 + a^2*x1*y1^2*x2^3*y3
      + a^2*x1*y1^2*x2^2*y2*x3 - a^2*x1*x2^3*y3 - a^2*x1*x2^2*y2*x3 + a^2*y1^3*x2^3*x3
      - a^2*y1*x2^3*x3 + a*d*x1^2*y1*x2^2*y2*y3 - a*d*x1^2*y1*x2*y2^2*x3
      - a*d*x1*y1^2*x2^2*y2*x3 - a*x1^2*y1*y2^3*y3 + a*x1^2*y1*y2*y3 + a*x1*y1^2*x2*y2^2*y3
      - a*x1*y1^2*x2*y3 + a*x1*y1^2*y2^3*x3 - a*x1*y1^2*y2*x3 - a*x1*x2*y2^2*y3 + a*x1*x2*y3
      - a*x1*y2^3*x3 + a*x1*y2*x3 - a*y1^3*x2^2*y2*y3 + a*y1^3*x2*y2^2*x3 - a*y1^3*x2*x3
      + a*y1*x2^2*y2*y3 - a*y1*x2*y2^2*x3 + a*y1*x2*x3 - d*x1*y1^2*x2*y2^2*y3 - y1^3*y2^3*y3
      + y1^3*y2*y3 + y1*y2^3*y3 - y1*y2*y3) * e3

/-- Associativity of the affine addition formula, x-coordinate, on field elements:
`x12, y12` are the coordinates of the first sum and `x23, y23` those of the second. -/
theorem assoc_core_x (a d x1 y1 x2 y2 x3 y3 x12 y12 x23 y23 : F)
    (e1 : x1 * x1 * a + y1 * y1 = 1 + x1 * x1 * y1 * y1 * d)
    (e2 : x2 * x2 * a + y2 * y2 = 1 + x2 * x2 * y2 * y2 * d)
    (e3 : x3 * x3 * a + y3 * y3 = 1 + x3 * x3 * y3 * y3 * d)
    (hDx : (1 + x1 * y2 * (y1 * x2) * d) ≠ 0) (hDy : (1 - x1 * y2 * (y1 * x2) * d) ≠ 0)
    (hDx' : (1 + x2 * y3 * (y2 * x3) * d) ≠ 0) (hDy' : (1 - x2 * y3 * (y2 * x3) * d) ≠ 0)
    (hx12 : x12 = (x1 * y2 + y1 * x2) / (1 + x1 * y2 * (y1 * x2) * d))
    (hy12 : y12 = (y1 * y2 - x1 * x2 * a) / (1 - x1 * y2 * (y1 * x2) * d))
    (hx23 : x23 = (x2 * y3 + y2 * x3) / (1 + x2 * y3 * (y2 * x3) * d))
    (hy23 : y23 = (y2 * y3 - x2 * x3 * a) / (1 - x2 * y3 * (y2 * x3) * d))
    (hL : 1 + x12 * y3 * (y12 * x3) * d ≠ 0)
    (hR : 1 + x1 * y23 * (y1 * x23) * d ≠ 0) :
    (x12 * y3 + y12 * x3) / (1 + x12 * y3 * (y12 * x3) * d) =
      (x1 * y23 + y1 * x23) / (1 + x1 * y23 * (y1 * x23) * d) := by
  have hDL : ((1 + d*x1*x2*y1*y2)*(1 - d*x1*x2*y1*y2)
     + d*(x1*y2 + y1*x2)*(y1*y2 - a*x1*x2)*x3*y3) ≠ 0 := by
    have h : ((1 + d*x1*x2*y1*y2)*(1 - d*x1*x2*y1*y2)
       + d*(x1*y2 + y1*x2)*(y1*y2 - a*x1*x2)*x3*y3) =
        (1 + x1 * y2 * (y1 * x2) * d) * (1 - x1 * y2 * (y1 * x2) * d) *
          (1 + x12 * y3 * (y12 * x3) * d) := by
      rw [hx12, hy12]
      field_simp
      ring
    rw [h]
    exact mul_ne_zero (mul_ne_zero hDx hDy) hL
  have hDR : ((1 + d*x2*x3*y2*y3)*(1 - d*x2*x3*y2*y3)
     + d*x1*y1*(x2*y3 + y2*x3)*(y2*y3 - a*x2*x3)) ≠ 0 := by
    have h : ((1 + d*x2*x3*y2*y3)*(1 - d*x2*x3*y2*y3)
       + d*x1*y1*(x2*y3 + y2*x3)*(y2*y3 - a*x2*x3)) =
        (1 + x2 * y3 * (y2 * x3) * d) * (1 - x2 * y3 * (y2 * x3) * d) *
          (1 + x1 * y23 * (y1 * x23) * d) := by
      rw [hx23, hy23]
      field_simp
      ring
    rw [h]
    exact mul_ne_zero (mul_ne_zero hDx' hDy') hR
  have hl : (x12 * y3 + y12 * x3) / (1 + x12 * y3 * (y12 * x3) * d) =
      ((x1*y2 + y1*x2)*(1 - d*x1*x2*y1*y2)*y3
       + (y1*y2 - a*x1*x2)*(1 + d*x1*x2*y1*y2)*x3) /
        ((1 + d*x1*x2*y1*y2)*(1 - d*x1*x2*y1*y2)
         + d*(x1*y2 + y1*x2)*(y1*y2 - a*x1*x2)*x3*y3) := by
    rw [div_eq_div_iff hL hDL, hx12, hy12]
    field_simp
    ring
  have hr : (x1 * y23 + y1 * x23) / (1 + x1 * y23 * (y1 * x23) * d) =
      (x1*(y2*y3 - a*x2*x3)*(1 + d*x2*x3*y2*y3)
       + y1*(x2*y3 + y2*x3)*(1 - d*x2*x3*y2*y3)) /
        ((1 + d*x2*x3*y2*y3)*(1 - d*x2*x3*y2*y3)
         + d*x1*y1*(x2*y3 + y2*x3)*(y2*y3 - a*x2*x3)) := by
    rw [div_eq_div_iff hR hDR, hx23, hy23]
    field_simp
    ring
  rw [hl, hr, div_eq_div_iff hDL hDR]
  exact assoc_poly_x a d x1 y1 x2 y2 x3 y3 e1 e2 e3

/-- Associativity of the affine addition formula, y-coordinate, on field elements:
`x12, y12` are the coordinates of the first sum and `x23, y23` those of the second. -/
theorem assoc_core_y (a d x1 y1 x2 y2 x3 y3 x12 y12 x23 y23 : F)
    (e1 : x1 * x1 * a + y1 * y1 = 1 + x1 * x1 * y1 * y1 * d)
    (e2 : x2 * x2 * a + y2 * y2 = 1 + x2 * x2 * y2 * y2 * d)
    (e3 : x3 * x3 * a + y3 * y3 = 1 + x3 * x3 * y3 * y3 * d)
    (hDx : (1 + x1 * y2 * (y1 * x2) * d) ≠ 0) (hDy : (1 - x1 * y2 * (y1 * x2) * d) ≠ 0)
    (hDx' : (1 + x2 * y3 * (y2 * x3) * d) ≠ 0) (hDy' : (1 - x2 * y3 * (y2 * x3) * d) ≠ 0)
    (hx12 : x12 = (x1 * y2 + y1 * x2) / (1 + x1 * y2 * (y1 * x2) * d))
    (hy12 : y12 = (y1 * y2 - x1 * x2 * a) / (1 - x1 * y2 * (y1 * x2) * d))
    (hx23 : x23 = (x2 * y3 + y2 * x3) / (1 + x2 * y3 * (y2 * x3) * d))
    (hy23 : y23 = (y2 * y3 - x2 * x3 * a) / (1 - x2 * y3 * (y2 * x3) * d))
    (hL : 1 - x12 * y3 * (y12 * x3) * d ≠ 0)
    (hR : 1 - x1 * y23 * (y1 * x23) * d ≠ 0) :
    (y12 * y3 - x12 * x3 * a) / (1 - x12 * y3 * (y12 * x3) * d) =
      (y1 * y23 - x1 * x23 * a) / (1 - x1 * y23 * (y1 * x23) * d) := by
  have hDL : ((1 + d*x1*x2*y1*y2)*(1 - d*x1*x2*y1*y2)
     - d*(x1*y2 + y1*x2)*(y1*y2 - a*x1*x2)*x3*y3) ≠ 0 := by
    have h : ((1 + d*x1*x2*y1*y2)*(1 - d*x1*x2*y1*y2)
       - d*(x1*y2 + y1*x2)*(y1*y2 - a*x1*x2)*x3*y3) =
        (1 + x1 * y2 * (y1 * x2) * d) * (1 - x1 * y2 * (y1 * x2) * d) *
          (1 - x12 * y3 * (y12 * x3) * d) := by
      rw [hx12, hy12]
      field_simp
      ring
    rw [h]
    exact mul_ne_zero (mul_ne_zero hDx hDy) hL
  have hDR : ((1 + d*x2*x3*y2*y3)*(1 - d*x2*x3*y2*y3)
     - d*x1*y1*(x2*y3 + y2*x3)*(y2*y3 - a*x2*x3)) ≠ 0 := by
    have h : ((1 + d*x2*x3*y2*y3)*(1 - d*x2*x3*y2*y3)
       - d*x1*y1*(x2*y3 + y2*x3)*(y2*y3 - a*x2*x3)) =
        (1 + x2 * y3 * (y2 * x3) * d) * (1 - x2 * y3 * (y2 * x3) * d) *
          (1 - x1 * y23 * (y1 * x23) * d) := by
      rw [hx23, hy23]
      field_simp
      ring
    rw [h]
    exact mul_ne_zero (mul_ne_zero hDx' hDy') hR
  have hl : (y12 * y3 - x12 * x3 * a) / (1 - x12 * y3 * (y12 * x3) * d) =
      ((y1*y2 - a*x1*x2)*(1 + d*x1*x2*y1*y2)*y3
       - a*(x1*y2 + y1*x2)*(1 - d*x1*x2*y1*y2)*x3) /
        ((1 + d*x1*x2*y1*y2)*(1 - d*x1*x2*y1*y2)
         - d*(x1*y2 + y1*x2)*(y1*y2 - a*x1*x2)*x3*y3) := by
    rw [div_eq_div_iff hL hDL, hx12, hy12]
    field_simp
    ring
  have hr : (y1 * y23 - x1 * x23 * a) / (1 - x1 * y23 * (y1 * x23) * d) =
      (y1*(y2*y3 - a*x2*x3)*(1 + d*x2*x3*y2*y3)
       - a*x1*(x2*y3 + y2*x3)*(1 - d*x2*x3*y2*y3)) /
        ((1 + d*x2*x3*y2*y3)*(1 - d*x2*x3*y2*y3)
         - d*x1*y1*(x2*y3 + y2*x3)*(y2*y3 - a*x2*x3)) := by
    rw [div_eq_div_iff hR hDR, hx23, hy23]
    field_simp
    ring
  rw [hl, hr, div_eq_div_iff hDL hDR]
  exact assoc_poly_y a d x1 y1 x2 y2 x3 y3 e1 e2 e3

/-- Associativity of affine addition whenever none of the four additions divides by
zero. -/
theorem add_assoc_of_defined (c : CurveParams F) (P Q R : PointAffine F)
    (hP : P.IsOnCurve c = true) (hQ : Q.IsOnCurve c = true) (hR : R.IsOnCurve c = true)
    (hPQ : PointAffine.AddDefined c P Q)
    (hPQR : PointAffine.AddDefined c (PointAffine.Add c P Q) R)
    (hQR : PointAffine.AddDefined c Q R)
    (hPQR' : PointAffine.AddDefined c P (PointAffine.Add c Q R)) :
    PointAffine.Add c (PointAffine.Add c P Q) R =
      PointAffine.Add c P (PointAffine.Add c Q R) := by
  obtain ⟨x1, y1⟩ := P
  obtain ⟨x2, y2⟩ := Q
  obtain ⟨x3, y3⟩ := R
  rw [isOnCurve_iff] at hP hQ hR
  simp only [PointAffine.AddDefined, PointAffine.denx, PointAffine.deny,
    PointAffine.Add] at hPQ hPQR hQR hPQR'
  simp only [PointAffine.Add, PointAffine.mk.injEq]
  exact ⟨assoc_core_x c.A c.D x1 y1 x2 y2 x3 y3 _ _ _ _ hP hQ hR hPQ.1 hPQ.2 hQR.1 hQR.2
      rfl rfl rfl rfl hPQR.1 hPQR'.1,
    assoc_core_y c.A c.D x1 y1 x2 y2 x3 y3 _ _ _ _ hP hQ hR hPQ.1 hPQ.2 hQR.1 hQR.2
      rfl rfl rfl rfl hPQR.2 hPQR'.2⟩

/-- On a curve whose `-A` is not a square, `denx` of a point with itself does not
vanish. -/
theorem denx_self_ne_zero (c : CurveParams F) (hA : ¬ IsSquare (-c.A)) (p : PointAffine F)
    (hp : p.IsOnCurve c = true) : PointAffine.denx c p p ≠ 0 := by
  obtain ⟨x, y⟩ := p
  rw [isOnCurve_iff] at hp
  simp only [PointAffine.denx]
  simp only at hp
  intro h0
  have hsum : x * x * c.A + y * y = 0 := by linear_combination hp + h0
  by_cases hx : x = 0
  · subst hx
    have hy : y * y = 0 := by linear_combination hsum
    have : (1 : F) = 0 := by linear_combination h0 - c.D * 0 * hy
    exact one_ne_zero this
  · apply hA
    refine ⟨y / x, ?_⟩
    field_simp
    linear_combination -hsum

/-- A sufficient condition on the constants for `DoublingDefined`: `-A` is not a square
and, with `s` a square root of `D * (D - A)` and `t` one of `A * D`, neither `D + s` nor
`D - s` is a square. -/
theorem doublingDefined_of (c : CurveParams F) (s t : F)
    (hs : s * s = c.D * (c.D - c.A)) (ht : t * t = c.A * c.D)
    (hA : ¬ IsSquare (-c.A)) (h1 : ¬ IsSquare (c.D + s)) (h2 : ¬ IsSquare (c.D - s)) :
    c.DoublingDefined := by
  intro p hp
  refine ⟨denx_self_ne_zero c hA p hp, ?_⟩
  obtain ⟨x, y⟩ := p
  rw [isOnCurve_iff] at hp
  simp only [PointAffine.deny]
  simp only at hp
  intro h0
  have hprod : (c.A * c.D * (x * x) - c.D - s) * (c.A * c.D * (x * x) - c.D + s) = 0 := by
    linear_combination (c.A * c.D) * ((1 - c.D * (x * x)) * h0 + c.D * (x * x) * hp) - hs
  rcases mul_eq_zero.1 hprod with h | h
  · apply h1
    refine ⟨t * x, ?_⟩
    linear_combination -h - (x * x) * ht
  · apply h2
    refine ⟨t * x, ?_⟩
    linear_combination -h - (x * x) * ht

/-! ## Facts about the Bandersnatch constants, continued -/

set_option maxRecDepth 100000 in
/-- For Bandersnatch (`A = -5`), `-A` is not a square. -/
theorem edwards_negA_not_isSquare : ¬ IsSquare (-edwards.A) :=
  fp_not_isSquare _ (by decide) (by decide)

set_option maxRecDepth 100000 in
/-- On Bandersnatch, adding a curve point to itself never divides by zero. -/
theorem edwards_doublingDefined : edwards.DoublingDefined :=
  doublingDefined_of edwards sqrtDDA sqrtAD (by decide) (by decide) edwards_negA_not_isSquare
    (fp_not_isSquare _ (by decide) (by decide)) (fp_not_isSquare _ (by decide) (by decide))

/-! ## The group-law claims -/

set_option maxRecDepth 100000 in
/-- C5 as stated fails: the generator `G` and the point `excPoint` lie on Bandersnatch,
but `Add(Add(G, G), excPoint)` and `Add(G, Add(G, excPoint))` are not `Equal`. -/
theorem add_assoc_counterexample :
    genPoint.IsOnCurve edwards = true ∧ excPoint.IsOnCurve edwards = true ∧
    PointAffine.Equal
      (PointAffine.Add edwards (PointAffine.Add edwards genPoint genPoint) excPoint)
      (PointAffine.Add edwards genPoint (PointAffine.Add edwards genPoint excPoint)) =
        false := by
  decide

/-- C5, amended: for all affine points `P`, `Q`, `R` that satisfy the curve equation and
for which none of the four additions involved divides by zero, `Add(Add(P,Q),R)` and
`Add(P,Add(Q,R))` are equal under `PointAffine.Equal`. -/
theorem add_assoc_equal (c : CurveParams F) (P Q R : PointAffine F)
    (hP : P.IsOnCurve c = true) (hQ : Q.IsOnCurve c = true) (hR : R.IsOnCurve c = true)
    (hPQ : PointAffine.AddDefined c P Q)
    (hPQR : PointAffine.AddDefined c (PointAffine.Add c P Q) R)
    (hQR : PointAffine.AddDefined c Q R)
    (hPQR' : PointAffine.AddDefined c P (PointAffine.Add c Q R)) :
    PointAffine.Equal (PointAffine.Add c (PointAffine.Add c P Q) R)
      (PointAffine.Add c P (PointAffine.Add c Q R)) = true :=
  (equal_iff _ _).2 (add_assoc_of_defined c P Q R hP hQ hR hPQ hPQR hQR hPQR')

set_option maxRecDepth 100000 in
/-- C5 amended, at `P = Q = R = G`, the generator of Bandersnatch. -/
theorem add_assoc_equal_witness :
    PointAffine.Equal
      (PointAffine.Add edwards (PointAffine.Add edwards genPoint genPoint) genPoint)
      (PointAffine.Add edwards genPoint (PointAffine.Add edwards genPoint genPoint)) =
        true :=
  add_assoc_equal edwards genPoint genPoint genPoint (by decide) (by decide) (by decide)
    (by decide) (by decide) (by decide) (by decide)

/-- C6: for all points `P`, `Q`, affine `Add(P,Q)` equals affine `Add(Q,P)` under `Equal`,
and projective `Add(P,Q)` and `Add(Q,P)` produce the same `(X, Y, Z)`. -/
theorem add_comm_affine_and_proj (c : CurveParams F) (P Q : PointAffine F)
    (P' Q' : PointProj F) :
    PointAffine.Equal (PointAffine.Add c P Q) (PointAffine.Add c Q P) = true ∧
    PointProj.Add c P' Q' = PointProj.Add c Q' P' := by
  constructor
  · rw [equal_iff]
    simp only [PointAffine.Add, PointAffine.mk.injEq]
    constructor
    · congr 1 <;> ring
    · congr 1 <;> ring
  · simp only [PointProj.Add, PointProj.mk.injEq]
    refine ⟨?_, ?_, ?_⟩ <;> ring

/-- C7: for every affine point `P` satisfying the curve equation, `Add(P, Neg(P))` equals
the identity `(0, 1)` under `Equal`, and so does `Sub(P, P)`.  The coefficient `A` is
assumed to have a non-square negative, as for Bandersnatch (`A = -5`). -/
theorem add_neg_self (c : CurveParams F) (hA : ¬ IsSquare (-c.A)) (P : PointAffine F)
    (hP : P.IsOnCurve c = true) :
    PointAffine.Equal (PointAffine.Add c P (PointAffine.Neg P)) PointAffine.Identity = true ∧
    PointAffine.Equal (PointAffine.Sub c P P) PointAffine.Identity = true := by
  have hden := denx_self_ne_zero c hA P hP
  have key : PointAffine.Add c P (PointAffine.Neg P) = PointAffine.Identity := by
    obtain ⟨x, y⟩ := P
    rw [isOnCurve_iff] at hP
    simp only [PointAffine.denx] at hden
    simp only at hP
    simp only [PointAffine.Add, PointAffine.Neg, PointAffine.Identity, PointAffine.mk.injEq]
    constructor
    · have : x * y + y * -x = 0 := by ring
      rw [this, zero_div]
    · have hd : 1 - x * y * (y * -x) * c.D = 1 + x * y * (y * x) * c.D := by ring
      rw [hd, div_eq_iff hden]
      linear_combination hP
  exact ⟨(equal_iff _ _).2 key, (equal_iff _ _).2 key⟩

set_option maxRecDepth 100000 in
/-- C7, at the generator of Bandersnatch. -/
theorem add_neg_self_witness :
    PointAffine.Equal (PointAffine.Add edwards genPoint (PointAffine.Neg genPoint))
      PointAffine.Identity = true ∧
    PointAffine.Equal (PointAffine.Sub edwards genPoint genPoint) PointAffine.Identity = true :=
  add_neg_self edwards edwards_negA_not_isSquare genPoint (by decide)

/-- C8: for every affine point `P`, `Add(P, Identity)` and `Add(Identity, P)` equal `P`
under `Equal`, where `Identity` is `(0, 1)`. -/
theorem add_identity (c : CurveParams F) (P : PointAffine F) :
    PointAffine.Equal (PointAffine.Add c P PointAffine.Identity) P = true ∧
    PointAffine.Equal (PointAffine.Add c PointAffine.Identity P) P = true := by
  obtain ⟨x, y⟩ := P
  constructor
  · rw [equal_iff]
    simp [PointAffine.Add, PointAffine.Identity]
  · rw [equal_iff]
    simp [PointAffine.Add, PointAffine.Identity]

set_option maxRecDepth 100000 in
/-- C9 as stated fails: the generator `G` and `excPoint` lie on Bandersnatch, but the
projective sum converted back with `FromProj` is not `Equal` to the affine `Add`. -/
theorem fromProj_add_counterexample :
    genPoint.IsOnCurve edwards = true ∧ excPoint.IsOnCurve edwards = true ∧
    PointAffine.Equal
      (PointAffine.FromProj
        (PointProj.Add edwards (PointProj.FromAffine genPoint) (PointProj.FromAffine excPoint)))
      (PointAffine.Add edwards genPoint excPoint) = false := by
  decide

/-- C9, amended: for all affine points `P`, `Q` (on the curve or not) for which neither
denominator of the affine addition vanishes, converting `P` and `Q` with `FromAffine`,
adding them with the projective `Add` and converting back with `FromProj` gives a point
equal under `Equal` to the affine `Add(P, Q)`. -/
theorem fromProj_add_fromAffine (c : CurveParams F) (P Q : PointAffine F)
    (h : PointAffine.AddDefined c P Q) :
    PointAffine.Equal
      (PointAffine.FromProj
        (PointProj.Add c (PointProj.FromAffine P) (PointProj.FromAffine Q)))
      (PointAffine.Add c P Q) = true := by
  rw [equal_iff, fromProj_eq]
  obtain ⟨x1, y1⟩ := P
  obtain ⟨x2, y2⟩ := Q
  obtain ⟨hx, hy⟩ := h
  simp only [PointAffine.denx, PointAffine.deny] at hx hy
  have hx' : 1 * 1 * (1 * 1) + c.D * (x1 * x2) * (y1 * y2) ≠ 0 := by
    intro h0
    apply hx
    linear_combination h0
  have hy' : 1 * 1 * (1 * 1) - c.D * (x1 * x2) * (y1 * y2) ≠ 0 := by
    intro h0
    apply hy
    linear_combination h0
  simp only [PointProj.Add, PointProj.FromAffine, PointAffine.Add, PointAffine.mk.injEq]
  constructor
  · rw [div_eq_div_iff (mul_ne_zero hy' hx') hx]
    ring
  · rw [div_eq_div_iff (mul_ne_zero hy' hx') hy]
    ring

set_option maxRecDepth 100000 in
/-- C9 amended, at `P = Q = G`, the generator of Bandersnatch. -/
theorem fromProj_add_fromAffine_witness :
    PointAffine.Equal
      (PointAffine.FromProj
        (PointProj.Add edwards (PointProj.FromAffine genPoint) (PointProj.FromAffine genPoint)))
      (PointAffine.Add edwards genPoint genPoint) = true :=
  fromProj_add_fromAffine edwards genPoint genPoint (by decide)

/-- C10: for every projective point `P` with `Z != 0` whose affine image satisfies the
curve equation, the specialised projective `Double(P)` and the projective `Add(P, P)` are
equal under `PointProj.Equal`; the affine `Double` is `Add(P, P)` by definition.  The curve
constants are assumed to be such that adding a curve point to itself never divides by
zero, as for Bandersnatch. -/
theorem proj_double_eq_add_self (c : CurveParams F) (hc : c.DoublingDefined)
    (P : PointProj F) (hZ : P.Z ≠ 0) (hP : (PointAffine.FromProj P).IsOnCurve c = true) :
    PointProj.Equal (PointProj.Double c P) (PointProj.Add c P P) = true ∧
    ∀ p : PointAffine F, PointAffine.Double c p = PointAffine.Add c p p := by
  refine ⟨?_, fun _ => rfl⟩
  obtain ⟨hx, hy⟩ := hc _ hP
  rw [fromProj_eq] at hx hy hP
  rw [isOnCurve_iff] at hP
  obtain ⟨X, Y, Z⟩ := P
  simp only [PointAffine.denx, PointAffine.deny] at hx hy
  simp only at hP hZ
  have hZ2 : Z * Z ≠ 0 := mul_ne_zero hZ hZ
  have hZ4 : Z * Z * (Z * Z) ≠ 0 := mul_ne_zero hZ2 hZ2
  -- the curve equation and the two denominators, cleared of `Z`
  have hcurve : X * X * c.A * (Z * Z) + Y * Y * (Z * Z) =
      Z * Z * (Z * Z) + X * X * Y * Y * c.D := by
    field_simp at hP
    apply mul_left_cancel₀ hZ2
    linear_combination hP
  have hG : Z * Z * (Z * Z) + c.D * (X * X) * (Y * Y) ≠ 0 := by
    intro h0
    apply hx
    field_simp
    linear_combination h0
  have hF' : Z * Z * (Z * Z) - c.D * (X * X) * (Y * Y) ≠ 0 := by
    intro h0
    apply hy
    field_simp
    linear_combination h0
  have hF : c.A * (X * X) + Y * Y ≠ 0 := by
    intro h0
    apply hG
    linear_combination (Z * Z) * h0 - hcurve
  have hJ : c.A * (X * X) + Y * Y - (Z * Z + Z * Z) ≠ 0 := by
    intro h0
    apply hF'
    linear_combination (-(Z * Z)) * h0 + hcurve
  have hZd : (c.A * (X * X) + Y * Y) * (c.A * (X * X) + Y * Y - (Z * Z + Z * Z)) ≠ 0 :=
    mul_ne_zero hF hJ
  have hZa : (Z * Z * (Z * Z) - c.D * (X * X) * (Y * Y)) *
      (Z * Z * (Z * Z) + c.D * (X * X) * (Y * Y)) ≠ 0 := mul_ne_zero hF' hG
  unfold PointProj.Equal
  simp only [PointProj.Double, PointProj.Add]
  rw [if_neg (not_or.2 ⟨hZd, hZa⟩), equal_iff, fromProj_eq, fromProj_eq]
  simp only [PointAffine.mk.injEq]
  constructor
  · rw [div_eq_div_iff hZd hZa]
    linear_combination
      (-(((X + Y) * (X + Y) - X * X - Y * Y) *
        (c.A * (X * X) + Y * Y - (Z * Z + Z * Z)) *
        (Z * Z * (Z * Z) - c.D * (X * X) * (Y * Y)))) * hcurve
  · rw [div_eq_div_iff hZd hZa]
    linear_combination
      ((c.A * (X * X) - Y * Y) * (c.A * (X * X) + Y * Y) *
        (Z * Z * (Z * Z) + c.D * (X * X) * (Y * Y))) * hcurve

set_option maxRecDepth 100000 in
/-- C10, at the projective point `(2x, 2y, 2)` over the generator `(x, y)` of
Bandersnatch. -/
theorem proj_double_eq_add_self_witness :
    PointProj.Equal
      (PointProj.Double edwards ⟨2 * genPoint.X, 2 * genPoint.Y, 2⟩)
      (PointProj.Add edwards ⟨2 * genPoint.X, 2 * genPoint.Y, 2⟩
        ⟨2 * genPoint.X, 2 * genPoint.Y, 2⟩) = true :=
  (proj_double_eq_add_self edwards edwards_doublingDefined
    ⟨2 * genPoint.X, 2 * genPoint.Y, 2⟩ (by decide) (by decide)).1

/-! ## Closure of the group law -/

/-- The closure identity with denominators cleared. -/
theorem closure_poly (a d x1 y1 x2 y2 : F)
    (e1 : x1 * x1 * a + y1 * y1 = 1 + x1 * x1 * y1 * y1 * d)
    (e2 : x2 * x2 * a + y2 * y2 = 1 + x2 * x2 * y2 * y2 * d) :
    a * (x1 * y2 + y1 * x2) ^ 2 * (1 - d * x1 * x2 * y1 * y2) ^ 2 +
        (y1 * y2 - a * x1 * x2) ^ 2 * (1 + d * x1 * x2 * y1 * y2) ^ 2 =
      (1 + d * x1 * x2 * y1 * y2) ^ 2 * (1 - d * x1 * x2 * y1 * y2) ^ 2 +
        d * (x1 * y2 + y1 * x2) ^ 2 * (y1 * y2 - a * x1 * x2) ^ 2 := by
  by_cases hd : d = 0
  · subst hd
    linear_combination (a * x2 ^ 2 + y2 ^ 2) * e1 + e2
  · have h2 : d ^ 2 ≠ 0 := pow_ne_zero 2 hd
    apply mul_left_cancel₀ h2
    linear_combination
      (-a^2*d^3*x1^2*x2^4*y2^2 - 2*a^2*d^2*x2^4*y2^2 + a^2*d^2*x2^4 + a*d^4*x1^2*x2^4*y2^4
       - a*d^3*x1^2*x2^2*y2^4 - a*d^3*y1^2*x2^4*y2^2 + 2*a*d^3*x2^4*y2^4 - 2*a*d^2*x2^2*y2^4
       + 4*a*d^2*x2^2*y2^2 + d^5*x1^2*y1^2*x2^4*y2^4 + d^4*y1^2*x2^4*y2^4 - d^4*x2^4*y2^4
       - d^3*y1^2*x2^2*y2^4 - 2*d^3*x2^2*y2^2 + d^2*y2^4) * e1 +
      (a^2*d^3*x1^4*x2^2*y2^2 + 2*a^2*d^2*x1^2*x2^2*y2^2 - a^2*d^2*x1^2*x2^2
       - 2*a*d^3*x1^2*x2^2*y2^2 - a*d^2*x1^2*y2^2 + 2*a*d^2*y1^2*x2^2*y2^2 - a*d^2*y1^2*x2^2
       - 2*a*d^2*x2^2*y2^2 + a*d^2*x2^2 + d^3*y1^4*x2^2*y2^2 - 2*d^3*y1^2*x2^2*y2^2
       + d^3*x2^2*y2^2 - d^2*y1^2*y2^2 + d^2*y2^2 + d^2) * e2

/-- The curve equation for a pair of quotients, from its cleared form. -/
theorem curve_div (A D Nx Ny Dx Dy : F) (hx : Dx ≠ 0) (hy : Dy ≠ 0)
    (key : A * Nx ^ 2 * Dy ^ 2 + Ny ^ 2 * Dx ^ 2 = Dx ^ 2 * Dy ^ 2 + D * Nx ^ 2 * Ny ^ 2) :
    Nx / Dx * (Nx / Dx) * A + Ny / Dy * (Ny / Dy) =
      1 + Nx / Dx * (Nx / Dx) * (Ny / Dy) * (Ny / Dy) * D := by
  field_simp
  linear_combination (Dx ^ 2 * Dy ^ 2) * key

/-- The sum of two curve points is a curve point when neither denominator vanishes. -/
theorem add_isOnCurve (c : CurveParams F) (P Q : PointAffine F)
    (hP : P.IsOnCurve c = true) (hQ : Q.IsOnCurve c = true)
    (h : PointAffine.AddDefined c P Q) :
    (PointAffine.Add c P Q).IsOnCurve c = true := by
  obtain ⟨x1, y1⟩ := P
  obtain ⟨x2, y2⟩ := Q
  obtain ⟨hx, hy⟩ := h
  rw [isOnCurve_iff] at hP hQ ⊢
  simp only [PointAffine.denx, PointAffine.deny] at hx hy
  simp only at hP hQ
  simp only [PointAffine.Add]
  have key := closure_poly c.A c.D x1 y1 x2 y2 hP hQ
  exact curve_div c.A c.D _ _ _ _ hx hy (by linear_combination key)

/-! ## Projective operations on affine images -/

/-- Projective addition of points with nonzero `Z`: when the affine images can be added
without dividing by zero, the result has nonzero `Z` and its affine image is the affine
sum. -/
theorem projAdd_spec (c : CurveParams F) (P1 P2 : PointProj F)
    (h1 : P1.Z ≠ 0) (h2 : P2.Z ≠ 0)
    (h : PointAffine.AddDefined c (PointAffine.FromProj P1) (PointAffine.FromProj P2)) :
    (PointProj.Add c P1 P2).Z ≠ 0 ∧
      PointAffine.FromProj (PointProj.Add c P1 P2) =
        PointAffine.Add c (PointAffine.FromProj P1) (PointAffine.FromProj P2) := by
  obtain ⟨X1, Y1, Z1⟩ := P1
  obtain ⟨X2, Y2, Z2⟩ := P2
  obtain ⟨hx, hy⟩ := h
  rw [fromProj_eq, fromProj_eq] at hx hy
  simp only [PointAffine.denx, PointAffine.deny] at hx hy
  simp only at h1 h2
  have hG : Z1 * Z2 * (Z1 * Z2) + c.D * (X1 * X2) * (Y1 * Y2) ≠ 0 := by
    intro h0
    apply hx
    field_simp
    linear_combination h0
  have hF : Z1 * Z2 * (Z1 * Z2) - c.D * (X1 * X2) * (Y1 * Y2) ≠ 0 := by
    intro h0
    apply hy
    field_simp
    linear_combination h0
  have hZ3 : (Z1 * Z2 * (Z1 * Z2) - c.D * (X1 * X2) * (Y1 * Y2)) *
      (Z1 * Z2 * (Z1 * Z2) + c.D * (X1 * X2) * (Y1 * Y2)) ≠ 0 := mul_ne_zero hF hG
  refine ⟨by simpa [PointProj.Add] using hZ3, ?_⟩
  rw [fromProj_eq, fromProj_eq, fromProj_eq]
  simp only [PointProj.Add, PointAffine.Add, PointAffine.mk.injEq]
  constructor
  · rw [div_eq_div_iff hZ3 hx]
    field_simp
    ring
  · rw [div_eq_div_iff hZ3 hy]
    field_simp
    ring

/-- Projective doubling of a point with nonzero `Z` whose affine image is on the curve:
when the affine image can be added to itself without dividing by zero, the result has
nonzero `Z` and its affine image is the affine double. -/
theorem projDouble_spec (c : CurveParams F) (P : PointProj F) (hZ : P.Z ≠ 0)
    (hP : (PointAffine.FromProj P).IsOnCurve c = true)
    (h : PointAffine.AddDefined c (PointAffine.FromProj P) (PointAffine.FromProj P)) :
    (PointProj.Double c P).Z ≠ 0 ∧
      PointAffine.FromProj (PointProj.Double c P) =
        PointAffine.Add c (PointAffine.FromProj P) (PointAffine.FromProj P) := by
  obtain ⟨hx, hy⟩ := h
  rw [fromProj_eq] at hx hy hP
  rw [isOnCurve_iff] at hP
  obtain ⟨X, Y, Z⟩ := P
  simp only [PointAffine.denx, PointAffine.deny] at hx hy
  simp only at hP hZ
  have hZ2 : Z * Z ≠ 0 := mul_ne_zero hZ hZ
  have hcurve : X * X * c.A * (Z * Z) + Y * Y * (Z * Z) =
      Z * Z * (Z * Z) + X * X * Y * Y * c.D := by
    field_simp at hP
    apply mul_left_cancel₀ hZ2
    linear_combination hP
  have hG : Z * Z * (Z * Z) + c.D * (X * X) * (Y * Y) ≠ 0 := by
    intro h0
    apply hx
    field_simp
    linear_combination h0
  have hF' : Z * Z * (Z * Z) - c.D * (X * X) * (Y * Y) ≠ 0 := by
    intro h0
    apply hy
    field_simp
    linear_combination h0
  have hF : c.A * (X * X) + Y * Y ≠ 0 := by
    intro h0
    apply hG
    linear_combination (Z * Z) * h0 - hcurve
  have hJ : c.A * (X * X) + Y * Y - (Z * Z + Z * Z) ≠ 0 := by
    intro h0
    apply hF'
    linear_combination (-(Z * Z)) * h0 + hcurve
  have hZd : (c.A * (X * X) + Y * Y) * (c.A * (X * X) + Y * Y - (Z * Z + Z * Z)) ≠ 0 :=
    mul_ne_zero hF hJ
  refine ⟨by simpa [PointProj.Double] using hZd, ?_⟩
  rw [fromProj_eq, fromProj_eq]
  simp only [PointProj.Double, PointAffine.Add, PointAffine.mk.injEq]
  constructor
  · rw [div_eq_div_iff hZd hx]
    field_simp
    linear_combination
      (-(((X + Y) * (X + Y) - X * X - Y * Y) *
        (c.A * (X * X) + Y * Y - (Z * Z + Z * Z)) * Z ^ 2)) * hcurve
  · rw [div_eq_div_iff hZd hy]
    field_simp
    linear_combination
      ((c.A * (X * X) - Y * Y) * (c.A * (X * X) + Y * Y) * Z ^ 2) * hcurve

/-! ## Double-and-add -/

/-- Halving at most `fuel` times reaches the bit length of any `n ≤ fuel`. -/
theorem lt_two_pow_bitLenAux : ∀ (fuel n : Nat), n ≤ fuel → n < 2 ^ bitLenAux fuel n := by
  intro fuel
  induction fuel with
  | zero =>
    intro n hn
    have : n = 0 := by omega
    subst this
    simp [bitLenAux]
  | succ f ih =>
    intro n hn
    unfold bitLenAux
    by_cases h0 : n = 0
    · simp [h0]
    · simp only [h0, if_false]
      have := ih (n / 2) (by omega)
      rw [pow_succ]
      omega

/-- A scalar is below two to the power of its bit length. -/
theorem lt_two_pow_scalarBitLen (n : Nat) : n < 2 ^ scalarBitLen n :=
  lt_two_pow_bitLenAux n n le_rfl

/-- The bit at index `BitLen` and every higher prefix of a scalar are zero. -/
theorem div_two_pow_eq_zero (n k : Nat) (hk : scalarBitLen n ≤ k) : n / 2 ^ k = 0 := by
  apply Nat.div_eq_of_lt
  exact lt_of_lt_of_le (lt_two_pow_scalarBitLen n) (Nat.pow_le_pow_right (by omega) hk)

/-- The prefix of a scalar above bit `i` extends by bit `i`. -/
theorem prefix_step (n i : Nat) : n / 2 ^ i = 2 * (n / 2 ^ (i + 1)) + scalarBit n i := by
  unfold scalarBit
  rw [pow_succ, ← Nat.div_div_eq_div_mul]
  omega

/-- A bit is `0` or `1`. -/
theorem scalarBit_lt (n i : Nat) : scalarBit n i = 0 ∨ scalarBit n i = 1 := by
  unfold scalarBit
  omega

/-- The one-fold sum is the point itself. -/
theorem nFold_one (c : CurveParams F) (P : PointAffine F) : PointAffine.nFold c P 1 = P := by
  obtain ⟨x, y⟩ := P
  simp [PointAffine.nFold, PointAffine.Add, PointAffine.Identity]

/-- Adding the identity on the right changes nothing. -/
theorem add_identity_right (c : CurveParams F) (P : PointAffine F) :
    PointAffine.Add c P PointAffine.Identity = P := by
  obtain ⟨x, y⟩ := P
  simp [PointAffine.Add, PointAffine.Identity]

/-- The identity is on the curve. -/
theorem identity_isOnCurve (c : CurveParams F) :
    (PointAffine.Identity : PointAffine F).IsOnCurve c = true := by
  simp [PointAffine.IsOnCurve, PointAffine.Identity]

/-- Under `MultiplesDefined`, every multiple up to the bound is on the curve. -/
theorem nFold_isOnCurve (c : CurveParams F) (P : PointAffine F) (n : Nat)
    (hP : P.IsOnCurve c = true) (hdef : P.MultiplesDefined c n) :
    ∀ k, k ≤ n → (PointAffine.nFold c P k).IsOnCurve c = true := by
  intro k
  induction k with
  | zero => intro _; exact identity_isOnCurve c
  | succ k ih =>
    intro hk
    have h1 := hdef k 1 hk
    rw [nFold_one] at h1
    exact add_isOnCurve c _ P (ih (by omega)) hP h1

/-- Under `MultiplesDefined`, the multiples add up: `(i + j) P = i P + j P`. -/
theorem nFold_add (c : CurveParams F) (P : PointAffine F) (n : Nat)
    (hP : P.IsOnCurve c = true) (hdef : P.MultiplesDefined c n) :
    ∀ j i, i + j ≤ n → PointAffine.nFold c P (i + j) =
      PointAffine.Add c (PointAffine.nFold c P i) (PointAffine.nFold c P j) := by
  intro j
  induction j with
  | zero =>
    intro i _
    exact (add_identity_right c _).symm
  | succ j ih =>
    intro i hij
    have hon := nFold_isOnCurve c P n hP hdef
    have e1 : PointAffine.nFold c P (i + (j + 1)) =
        PointAffine.Add c (PointAffine.nFold c P (i + j)) P := rfl
    have e2 : PointAffine.nFold c P (j + 1) = PointAffine.Add c (PointAffine.nFold c P j) P :=
      rfl
    have d1 := hdef i j (by omega)
    have d2 := hdef (i + j) 1 (by omega)
    have d3 := hdef j 1 (by omega)
    have d4 := hdef i (j + 1) (by omega)
    rw [nFold_one] at d2 d3
    rw [ih i (by omega)] at d2
    rw [e2] at d4
    rw [e1, ih i (by omega), e2]
    exact add_assoc_of_defined c _ _ P (hon i (by omega)) (hon j (by omega)) hP d1 d2 d3 d4

/-- The loop invariant of double-and-add: if the accumulator has nonzero `Z` and its
affine image is the multiple of `P` by the prefix of the scalar above bit `k`, the loop
run over the bits `k - 1, ..., 0` ends with nonzero `Z` on the multiple by the scalar. -/
theorem doubleAndAddLoop_spec (c : CurveParams F) (P : PointAffine F) (n : Nat)
    (hP : P.IsOnCurve c = true) (hdef : P.MultiplesDefined c n) :
    ∀ (k : Nat) (acc : PointProj F), acc.Z ≠ 0 →
      PointAffine.FromProj acc = PointAffine.nFold c P (n / 2 ^ k) →
      (doubleAndAddLoop c (PointProj.FromAffine P) n k acc).Z ≠ 0 ∧
        PointAffine.FromProj (doubleAndAddLoop c (PointProj.FromAffine P) n k acc) =
          PointAffine.nFold c P n := by
  intro k
  induction k with
  | zero =>
    intro acc hZ hacc
    simp only [pow_zero, Nat.div_one] at hacc
    exact ⟨hZ, hacc⟩
  | succ k ih =>
    intro acc hZ hacc
    have hon := nFold_isOnCurve c P n hP hdef
    have hstep := prefix_step n k
    have hle : n / 2 ^ k ≤ n := Nat.div_le_self _ _
    set m := n / 2 ^ (k + 1) with hm
    -- the doubling
    have hmm : m + m ≤ n := by omega
    have hdd := hdef m m hmm
    rw [← hacc] at hdd
    have honacc : (PointAffine.FromProj acc).IsOnCurve c = true := by
      rw [hacc]; exact hon m (by omega)
    obtain ⟨hZd, hfd⟩ := projDouble_spec c acc hZ honacc hdd
    rw [hacc, ← nFold_add c P n hP hdef m m hmm] at hfd
    unfold doubleAndAddLoop
    simp only []
    rcases scalarBit_lt n k with hb | hb
    · rw [hb] at hstep
      simp only [hb, zero_ne_one, if_false]
      apply ih _ hZd
      rw [hfd, hstep]
      congr 1
      omega
    · rw [hb] at hstep
      simp only [hb, if_true]
      have hfa : PointAffine.FromProj (PointProj.FromAffine P) = P := by
        obtain ⟨x, y⟩ := P
        simp [PointAffine.FromProj, PointProj.FromAffine]
      have hda := hdef (m + m) 1 (by omega)
      rw [nFold_one, ← hfd] at hda
      have hda' : PointAffine.AddDefined c
          (PointAffine.FromProj (PointProj.Double c acc))
          (PointAffine.FromProj (PointProj.FromAffine P)) := by
        rw [hfa]; exact hda
      obtain ⟨hZa, hfa2⟩ := projAdd_spec c (PointProj.Double c acc) (PointProj.FromAffine P)
        hZd (by simp [PointProj.FromAffine]) hda'
      apply ih _ hZa
      rw [hfa2, hfa, hfd, hstep]
      have : 2 * m + 1 = (m + m) + 1 := by omega
      rw [this]
      rfl

/-- The affine image of the projective identity. -/
theorem fromProj_identity :
    PointAffine.FromProj (PointProj.Identity : PointProj F) = PointAffine.Identity := by
  simp [PointAffine.FromProj, PointProj.Identity, PointAffine.Identity]

/-- Double-and-add over `k ≥ BitLen` bits computes the multiple by the scalar, with a
nonzero final `Z`. -/
theorem doubleAndAdd_eq_nFold (c : CurveParams F) (P : PointAffine F) (n k : Nat)
    (hP : P.IsOnCurve c = true) (hdef : P.MultiplesDefined c n) (hk : scalarBitLen n ≤ k) :
    (doubleAndAddLoop c (PointProj.FromAffine P) n k PointProj.Identity).Z ≠ 0 ∧
      PointAffine.FromProj (doubleAndAddLoop c (PointProj.FromAffine P) n k
        PointProj.Identity) = PointAffine.nFold c P n := by
  apply doubleAndAddLoop_spec c P n hP hdef k
  · simp [PointProj.Identity]
  · rw [div_two_pow_eq_zero n k hk, fromProj_identity]
    rfl

/-! ## Points of small order -/

/-- One iteration of double-and-add with base point `(0, s, 1)` on an
accumulator `(0, Y, Z)` with `Y = Z` or `Y = -Z`: the accumulator stays of that shape, and
`Y = s * Z` after an addition, `Y = Z` after a bare doubling. -/
theorem step_torsion (c : CurveParams F) (s : F) (acc : PointProj F)
    (hX : acc.X = 0) (hZ : acc.Z ≠ 0) (hY : acc.Y = acc.Z ∨ acc.Y = -acc.Z) :
    ((PointProj.Double c acc).X = 0 ∧ (PointProj.Double c acc).Z ≠ 0 ∧
      (PointProj.Double c acc).Y = (PointProj.Double c acc).Z) ∧
    ((PointProj.Add c (PointProj.Double c acc) ⟨0, s, 1⟩).X = 0 ∧
      (PointProj.Add c (PointProj.Double c acc) ⟨0, s, 1⟩).Z ≠ 0 ∧
      (PointProj.Add c (PointProj.Double c acc) ⟨0, s, 1⟩).Y =
        s * (PointProj.Add c (PointProj.Double c acc) ⟨0, s, 1⟩).Z) := by
  obtain ⟨X, Y, Z⟩ := acc
  simp only at hX hZ hY
  subst hX
  have hYY : Y * Y = Z * Z := by
    rcases hY with h | h <;> rw [h]
    ring
  have hZ4 : Z * Z * (Z * Z) ≠ 0 := mul_ne_zero (mul_ne_zero hZ hZ) (mul_ne_zero hZ hZ)
  have hDZ : (PointProj.Double c ⟨0, Y, Z⟩).Z = -(Z * Z * (Z * Z)) := by
    simp only [PointProj.Double]
    linear_combination (Y * Y - Z * Z) * hYY
  have hDY : (PointProj.Double c ⟨0, Y, Z⟩).Y = -(Z * Z * (Z * Z)) := by
    simp only [PointProj.Double]
    linear_combination (-(Y * Y) - Z * Z) * hYY
  have hDX : (PointProj.Double c ⟨0, Y, Z⟩).X = 0 := by
    simp only [PointProj.Double]
    ring
  have hW : -(Z * Z * (Z * Z)) ≠ 0 := neg_ne_zero.2 hZ4
  refine ⟨⟨hDX, by rw [hDZ]; exact hW, by rw [hDY, hDZ]⟩, ?_⟩
  generalize PointProj.Double c ⟨0, Y, Z⟩ = D at hDX hDY hDZ
  obtain ⟨DX, DY, DZ⟩ := D
  simp only at hDX hDY hDZ
  subst hDX hDY hDZ
  simp only [PointProj.Add]
  refine ⟨by ring, ?_, by ring⟩
  have : (-(Z * Z * (Z * Z)) * 1 * (-(Z * Z * (Z * Z)) * 1) -
      c.D * (0 * 0) * (-(Z * Z * (Z * Z)) * s)) *
      (-(Z * Z * (Z * Z)) * 1 * (-(Z * Z * (Z * Z)) * 1) +
      c.D * (0 * 0) * (-(Z * Z * (Z * Z)) * s)) =
      (Z * Z * (Z * Z)) * (Z * Z * (Z * Z)) * ((Z * Z * (Z * Z)) * (Z * Z * (Z * Z))) := by
    ring
  rw [this]
  exact mul_ne_zero (mul_ne_zero hZ4 hZ4) (mul_ne_zero hZ4 hZ4)

/-- Double-and-add with base point `(0, s, 1)`, `s * s = 1`, run over the bits
`k, ..., 0`: the result is `(0, s * Z, Z)` when bit `0` of the scalar is set and
`(0, Z, Z)` otherwise, with `Z` nonzero. -/
theorem loop_torsion (c : CurveParams F) (s : F) (hs : s * s = 1) (n : Nat) :
    ∀ (k : Nat) (acc : PointProj F), acc.X = 0 → acc.Z ≠ 0 →
      (acc.Y = acc.Z ∨ acc.Y = -acc.Z) →
      (doubleAndAddLoop c ⟨0, s, 1⟩ n (k + 1) acc).X = 0 ∧
      (doubleAndAddLoop c ⟨0, s, 1⟩ n (k + 1) acc).Z ≠ 0 ∧
      (doubleAndAddLoop c ⟨0, s, 1⟩ n (k + 1) acc).Y =
        (if scalarBit n 0 = 1 then s else 1) *
          (doubleAndAddLoop c ⟨0, s, 1⟩ n (k + 1) acc).Z := by
  have hs' : s = 1 ∨ s = -1 := by
    have : (s - 1) * (s + 1) = 0 := by linear_combination hs
    rcases mul_eq_zero.1 this with h | h
    · left; linear_combination h
    · right; linear_combination h
  intro k
  induction k with
  | zero =>
    intro acc hX hZ hY
    obtain ⟨⟨d1, d2, d3⟩, a1, a2, a3⟩ := step_torsion c s acc hX hZ hY
    by_cases hb : scalarBit n 0 = 1
    · simp only [doubleAndAddLoop, hb, if_true]
      exact ⟨a1, a2, a3⟩
    · simp only [doubleAndAddLoop, hb, if_false]
      exact ⟨d1, d2, by rw [d3, one_mul]⟩
  | succ k ih =>
    intro acc hX hZ hY
    obtain ⟨⟨d1, d2, d3⟩, a1, a2, a3⟩ := step_torsion c s acc hX hZ hY
    rw [doubleAndAddLoop]
    by_cases hb : scalarBit n (k + 1) = 1
    · simp only [hb, if_true]
      apply ih _ a1 a2
      rcases hs' with h | h
      · left; rw [a3, h, one_mul]
      · right; rw [a3, h]; ring
    · simp only [hb, if_false]
      exact ih _ d1 d2 (Or.inl d3)

/-- Double-and-add on the affine point `(0, s)`, `s * s = 1`: the affine result is
`(0, s)` for an odd scalar and `(0, 1)` for an even one. -/
theorem doubleAndAdd_torsion (c : CurveParams F) (s : F) (hs : s * s = 1) (n : Nat) :
    PointAffine.FromProj (doubleAndAddLoop c (PointProj.FromAffine ⟨0, s⟩) n
      (scalarBitLen n + 1) PointProj.Identity) =
      ⟨0, if n % 2 = 1 then s else 1⟩ := by
  have h := loop_torsion c s hs n (scalarBitLen n) PointProj.Identity rfl
    (by simp [PointProj.Identity]) (Or.inl rfl)
  have hfa : (PointProj.FromAffine ⟨0, s⟩ : PointProj F) = ⟨0, s, 1⟩ := rfl
  rw [hfa, fromProj_eq]
  obtain ⟨h1, h2, h3⟩ := h
  have hbit : scalarBit n 0 = n % 2 := by simp [scalarBit]
  rw [hbit] at h3
  rw [h1, h3, zero_div, mul_div_assoc, div_self h2, mul_one]

/-- A curve point that can be doubled without dividing by zero and whose double has
`X = 0` is `(0, 1)` or `(0, -1)`, when `A` is not a square and `2 ≠ 0`. -/
theorem eq_of_double_x_eq_zero (c : CurveParams F) (hA : ¬ IsSquare c.A) (h2 : (2 : F) ≠ 0)
    (Q : PointAffine F) (hQ : Q.IsOnCurve c = true) (hdef : PointAffine.AddDefined c Q Q)
    (hX : (PointAffine.Add c Q Q).X = 0) :
    Q = PointAffine.Identity ∨ Q = ⟨0, -1⟩ := by
  obtain ⟨x, y⟩ := Q
  rw [isOnCurve_iff] at hQ
  obtain ⟨hx, _⟩ := hdef
  simp only [PointAffine.denx] at hx
  simp only [PointAffine.Add] at hX
  simp only at hQ
  rw [div_eq_zero_iff] at hX
  have hxy : x * y = 0 := by
    rcases hX with h | h
    · have h' : 2 * (x * y) = 0 := by linear_combination h
      exact (mul_eq_zero.1 h').resolve_left h2
    · exact absurd h hx
  have hx0 : x = 0 := by
    rcases mul_eq_zero.1 hxy with h | h
    · exact h
    · exfalso
      subst h
      apply hA
      have hx1 : x * x * c.A = 1 := by linear_combination hQ
      have hxne : x ≠ 0 := by
        intro h0
        rw [h0] at hx1
        simp at hx1
      refine ⟨x⁻¹, ?_⟩
      field_simp
      linear_combination hx1
  subst hx0
  have hy : (y - 1) * (y + 1) = 0 := by linear_combination hQ
  rcases mul_eq_zero.1 hy with h | h
  · left
    have : y = 1 := by linear_combination h
    rw [this]
    rfl
  · right
    have : y = -1 := by linear_combination h
    rw [this]

/-- On a curve where doubling never divides by zero, `A` is not a square and `2 ≠ 0`, the
only curve point other than the identity whose fourfold is the identity is `(0, -1)`. -/
theorem eq_of_fourfold_eq_identity (c : CurveParams F) (hc : c.DoublingDefined)
    (hA : ¬ IsSquare c.A) (h2 : (2 : F) ≠ 0) (P : PointAffine F)
    (hP : P.IsOnCurve c = true) (hne : P ≠ PointAffine.Identity)
    (h4 : PointAffine.Double c (PointAffine.Double c P) = PointAffine.Identity) :
    P = ⟨0, -1⟩ := by
  have hne1 : (1 : F) ≠ -1 := by
    intro h
    apply h2
    linear_combination h
  have hQ : (PointAffine.Add c P P).IsOnCurve c = true := add_isOnCurve c P P hP hP (hc P hP)
  have hQX : (PointAffine.Add c (PointAffine.Add c P P) (PointAffine.Add c P P)).X = 0 := by
    have : PointAffine.Add c (PointAffine.Add c P P) (PointAffine.Add c P P) =
        PointAffine.Identity := h4
    rw [this]
    rfl
  have hP' : ∀ y : F, PointAffine.Add c P P = ⟨0, y⟩ →
      P = PointAffine.Identity ∨ P = ⟨0, -1⟩ := by
    intro y hy
    apply eq_of_double_x_eq_zero c hA h2 P hP (hc P hP)
    rw [hy]
  rcases eq_of_double_x_eq_zero c hA h2 _ hQ (hc _ hQ) hQX with h | h
  · exact (hP' 1 h).resolve_left hne
  · exfalso
    rcases hP' (-1) h with h' | h'
    · rw [h'] at h
      simp [PointAffine.Add, PointAffine.Identity] at h
      exact hne1 h
    · rw [h'] at h
      simp [PointAffine.Add] at h
      exact hne1 h

/-! ## The square class of a curve point

A point is of the square class when `1 - A * x^2` is a square.  On curve points the class
is multiplicative under addition, every double is of the class, and two curve points of
the class add without dividing by zero when neither `D` nor `-D` is a square.  A curve
point that passes `IsInPrimeSubgroup` is of the class. -/

/-- The polynomial identity behind the multiplicativity of the square class, with
denominators cleared. -/
theorem sqclass_poly (a d x1 y1 x2 y2 : F) (hd : d ≠ 0)
    (e1 : x1 * x1 * a + y1 * y1 = 1 + x1 * x1 * y1 * y1 * d)
    (e2 : x2 * x2 * a + y2 * y2 = 1 + x2 * x2 * y2 * y2 * d) :
    ((1 + d * x1 * x2 * y1 * y2) ^ 2 - a * (x1 * y2 + y1 * x2) ^ 2) *
        (y1 * y2 * (1 - a * d * x1 ^ 2 * x2 ^ 2)) ^ 2 =
      (1 - a * x1 ^ 2) * (1 - a * x2 ^ 2) *
        ((y1 * y2 - a * x1 * x2) * (1 + d * x1 * x2 * y1 * y2)) ^ 2 := by
  apply mul_left_cancel₀ hd
  linear_combination
      (a^4*d^2*x1^4*x2^6*y2^2 + 2*a^4*d*x1^2*x2^6*y2^2 + 3*a^4*x2^6*y2^2 - a^3*d^3*x1^4*x2^6*y2^4
       + a^3*d^2*x1^4*x2^4*y2^4 - a^3*d^2*x1^4*x2^4*y2^2 + a^3*d^2*x1^2*y1^2*x2^6*y2^2
       - 2*a^3*d^2*x1^2*x2^6*y2^4 - a^3*d^2*x1^2*x2^6*y2^2 + 2*a^3*d*x1^2*x2^4*y2^4
       - 5*a^3*d*x1^2*x2^4*y2^2 + a^3*d*y1^2*x2^6*y2^2 - 3*a^3*d*x2^6*y2^4
       - 2*a^3*d*x2^6*y2^2 + 3*a^3*x2^4*y2^4 - 7*a^3*x2^4*y2^2
       - a^2*d^4*x1^4*y1^2*x2^6*y2^4 - 2*a^2*d^3*x1^3*y1*x2^5*y2^3
       - a^2*d^3*x1^2*y1^2*x2^6*y2^4 + a^2*d^3*x1^2*x2^6*y2^4
       + 2*a^2*d^2*x1^3*y1*x2^3*y2^3 + a^2*d^2*x1^2*y1^2*x2^4*y2^4
       + 2*a^2*d^2*x1^2*x2^4*y2^4 - a^2*d^2*y1^2*x2^6*y2^4 + 2*a^2*d^2*x2^6*y2^4
       - 3*a^2*d*x1^2*x2^2*y2^4 + 4*a^2*d*x1^2*x2^2*y2^2 + a^2*d*y1^2*x2^4*y2^4
       - 2*a^2*d*y1^2*x2^4*y2^2 + 2*a^2*d*x2^4*y2^4 + 4*a^2*d*x2^4*y2^2 - 4*a^2*x2^2*y2^4
       + 5*a^2*x2^2*y2^2 + 2*a*d^3*x1^2*y1^2*x2^4*y2^4 - a*d^2*x1^2*y1^2*x2^2*y2^4
       + 2*a*d^2*x1*y1*x2^3*y2^3 + a*d^2*y1^2*x2^4*y2^4 - 2*a*d^2*x2^4*y2^4
       - 2*a*d*x1*y1*x2*y2^3 - a*d*y1^2*x2^2*y2^4 + a*d*x2^2*y2^4 - 2*a*d*x2^2*y2^2
       + a*y2^4 - a*y2^2) * e1 +
      (-a^4*d^2*x1^6*x2^4*y2^2 - 2*a^4*d*x1^4*x2^4*y2^2 - 3*a^4*x1^2*x2^4*y2^2
       - 2*a^3*d^2*x1^5*y1*x2^3*y2 + 2*a^3*d^2*x1^4*x2^4*y2^2 + 3*a^3*d*x1^4*x2^2*y2^2
       - a^3*d*x1^4*x2^2 + 4*a^3*d*x1^2*x2^4*y2^2 + 4*a^3*x1^2*x2^2*y2^2
       - 3*a^3*y1^2*x2^4*y2^2 + 3*a^3*x2^4*y2^2 + 2*a^2*d^2*x1^3*y1*x2^3*y2
       - a^2*d^2*x1^2*x2^4*y2^2 + 2*a^2*d*x1^3*y1*x2*y2 - 5*a^2*d*x1^2*x2^2*y2^2
       + a^2*d*x1^2*x2^2 - a^2*d*y1^4*x2^4*y2^2 + 3*a^2*d*y1^2*x2^4*y2^2
       - 2*a^2*d*x2^4*y2^2 - a^2*x1^2*y2^2 + 4*a^2*y1^2*x2^2*y2^2 - 4*a^2*x2^2*y2^2
       - 2*a*d*x1*y1*x2*y2 + a*d*y1^4*x2^2*y2^2 - 3*a*d*y1^2*x2^2*y2^2 + 2*a*d*x2^2*y2^2
       - a*y1^2*y2^2 + a*y2^2) * e2


/-- A curve point has a nonzero `y` when `A` is not a square. -/
theorem curve_y_ne_zero (c : CurveParams F) (hA : ¬ IsSquare c.A) (P : PointAffine F)
    (hP : P.IsOnCurve c = true) : P.Y ≠ 0 := by
  obtain ⟨x, y⟩ := P
  rw [isOnCurve_iff] at hP
  simp only at hP ⊢
  intro hy
  subst hy
  apply hA
  have hx1 : x * x * c.A = 1 := by linear_combination hP
  have hxne : x ≠ 0 := by
    intro h0
    rw [h0] at hx1
    simp at hx1
  refine ⟨x⁻¹, ?_⟩
  field_simp
  linear_combination hx1

/-- When `k` is not a square, `1 - k * x^2` is nonzero. -/
theorem one_sub_mul_sq_ne_zero (k : F) (hk : ¬ IsSquare k) (x : F) : 1 - k * x ^ 2 ≠ 0 := by
  intro h
  apply hk
  have hx1 : k * x ^ 2 = 1 := by linear_combination -h
  have hxne : x ≠ 0 := by
    intro h0
    rw [h0] at hx1
    simp at hx1
  refine ⟨x⁻¹, ?_⟩
  field_simp
  linear_combination hx1

/-- The factorisation that locates the zero denominators: on the curve,
`(1 - d x1^2)(1 - d x2^2)((d x1 x2 y1 y2)^2 - 1)` is
`(a d x1^2 x2^2 - 1)(a d x1^2 x2^2 + 1 - d (x1^2 + x2^2))`. -/
theorem exceptional_factor (a d x1 y1 x2 y2 : F)
    (e1 : x1 * x1 * a + y1 * y1 = 1 + x1 * x1 * y1 * y1 * d)
    (e2 : x2 * x2 * a + y2 * y2 = 1 + x2 * x2 * y2 * y2 * d) :
    (1 - d * x1 ^ 2) * (1 - d * x2 ^ 2) * ((d * x1 * x2 * y1 * y2) ^ 2 - 1) =
      (a * d * x1 ^ 2 * x2 ^ 2 - 1) * (a * d * x1 ^ 2 * x2 ^ 2 + 1 - d * (x1 ^ 2 + x2 ^ 2)) := by
  linear_combination
    (d ^ 2 * x1 ^ 2 * x2 ^ 2 * y2 ^ 2 * (1 - d * x2 ^ 2)) * e1 +
    (d ^ 2 * x1 ^ 2 * x2 ^ 2 * (1 - a * x1 ^ 2)) * e2

/-- On a curve whose `D` is not a square, a zero denominator of the addition of two curve
points forces `A * D * x1^2 * x2^2 = 1`. -/
theorem exceptional_adxx (a d x1 y1 x2 y2 : F) (hD : ¬ IsSquare d)
    (e1 : x1 * x1 * a + y1 * y1 = 1 + x1 * x1 * y1 * y1 * d)
    (e2 : x2 * x2 * a + y2 * y2 = 1 + x2 * x2 * y2 * y2 * d)
    (hdl : (d * x1 * x2 * y1 * y2) ^ 2 = 1) :
    a * d * x1 ^ 2 * x2 ^ 2 = 1 := by
  have hf := exceptional_factor a d x1 y1 x2 y2 e1 e2
  rw [hdl, sub_self, mul_zero] at hf
  rcases mul_eq_zero.1 hf.symm with h | h
  · linear_combination h
  · exfalso
    have h2 : 1 - d * x2 ^ 2 ≠ 0 := one_sub_mul_sq_ne_zero d hD x2
    have h3 : (d * x1 ^ 2 * y2 ^ 2 - 1) * (1 - d * x2 ^ 2) = 0 := by
      linear_combination (d * x1 ^ 2) * e2 - h
    have h4 : d * x1 ^ 2 * y2 ^ 2 = 1 := by
      rcases mul_eq_zero.1 h3 with h5 | h5
      · linear_combination h5
      · exact absurd h5 h2
    have hne : x1 * y2 ≠ 0 := by
      intro h0
      have : d * x1 ^ 2 * y2 ^ 2 = d * (x1 * y2) ^ 2 := by ring
      rw [this, h0] at h4
      simp at h4
    apply hD
    refine ⟨(x1 * y2)⁻¹, ?_⟩
    field_simp
    linear_combination h4

/-- Two curve points for which `(1 - A * x1^2) * (1 - A * x2^2)` is a square add without
dividing by zero, when neither `D` nor `-D` is a square. -/
theorem addDefined_of_isSquare_mul (c : CurveParams F) (hD : ¬ IsSquare c.D)
    (hnD : ¬ IsSquare (-c.D)) (P Q : PointAffine F)
    (hP : P.IsOnCurve c = true) (hQ : Q.IsOnCurve c = true)
    (hsq : IsSquare ((1 - c.A * P.X * P.X) * (1 - c.A * Q.X * Q.X))) :
    PointAffine.AddDefined c P Q := by
  obtain ⟨x1, y1⟩ := P
  obtain ⟨x2, y2⟩ := Q
  rw [isOnCurve_iff] at hP hQ
  obtain ⟨s, hs⟩ := hsq
  simp only at hP hQ hs
  by_contra hnot
  have hdl : (c.D * x1 * x2 * y1 * y2) ^ 2 = 1 := by
    unfold PointAffine.AddDefined at hnot
    simp only [PointAffine.denx, PointAffine.deny] at hnot
    by_cases hx : 1 + x1 * y2 * (y1 * x2) * c.D = 0
    · linear_combination (x1 * y2 * (y1 * x2) * c.D - 1) * hx
    · have hy : 1 - x1 * y2 * (y1 * x2) * c.D = 0 := by
        by_contra hy
        exact hnot ⟨hx, hy⟩
      linear_combination (-(x1 * y2 * (y1 * x2) * c.D) - 1) * hy
  have had := exceptional_adxx c.A c.D x1 y1 x2 y2 hD hP hQ hdl
  have hw1 : 1 - c.D * x1 ^ 2 ≠ 0 := one_sub_mul_sq_ne_zero c.D hD x1
  have hy1 : y1 ≠ 0 := by
    intro h0
    rw [h0] at hdl
    simp at hdl
  have hw : y1 * (1 - c.D * x1 ^ 2) ≠ 0 := mul_ne_zero hy1 hw1
  apply hnD
  refine ⟨s * c.D * x1 / (y1 * (1 - c.D * x1 ^ 2)), ?_⟩
  field_simp
  linear_combination
    (c.D ^ 2 * x1 ^ 2) * hs
      + (c.D * (1 - c.A * x1 * x1)) * had - (c.D * (1 - c.D * x1 ^ 2)) * hP

/-- Two curve points of the square class add without dividing by zero, when neither `D`
nor `-D` is a square. -/
theorem addDefined_of_inSquareClass (c : CurveParams F) (hD : ¬ IsSquare c.D)
    (hnD : ¬ IsSquare (-c.D)) (P Q : PointAffine F)
    (hP : P.IsOnCurve c = true) (hQ : Q.IsOnCurve c = true)
    (sP : P.InSquareClass c) (sQ : Q.InSquareClass c) :
    PointAffine.AddDefined c P Q := by
  obtain ⟨s1, hs1⟩ := sP
  obtain ⟨s2, hs2⟩ := sQ
  exact addDefined_of_isSquare_mul c hD hnD P Q hP hQ ⟨s1 * s2, by rw [hs1, hs2]; ring⟩

/-- Adding a curve point to itself never divides by zero when neither `D` nor `-D` is a
square. -/
theorem doublingDefined_of_not_isSquare (c : CurveParams F) (hD : ¬ IsSquare c.D)
    (hnD : ¬ IsSquare (-c.D)) : c.DoublingDefined :=
  fun P hP => addDefined_of_isSquare_mul c hD hnD P P hP hP ⟨1 - c.A * P.X * P.X, rfl⟩

/-- Zero is a square, so a non-square is nonzero. -/
theorem ne_zero_of_not_isSquare (k : F) (hk : ¬ IsSquare k) : k ≠ 0 := by
  intro h
  apply hk
  rw [h]
  exact ⟨0, by simp⟩

/-- Multiplicativity of the square class: for curve points `P`, `Q` that add without
dividing by zero, `1 - A * x3^2` at the sum is `(1 - A * x1^2) * (1 - A * x2^2)` times a
nonzero square. -/
theorem add_sqclass (c : CurveParams F) (hA : ¬ IsSquare c.A) (hD : ¬ IsSquare c.D)
    (P Q : PointAffine F) (hP : P.IsOnCurve c = true) (hQ : Q.IsOnCurve c = true)
    (h : PointAffine.AddDefined c P Q) :
    ∃ w : F, w ≠ 0 ∧
      1 - c.A * (PointAffine.Add c P Q).X * (PointAffine.Add c P Q).X =
        (1 - c.A * P.X * P.X) * (1 - c.A * Q.X * Q.X) * (w * w) := by
  have hd : c.D ≠ 0 := ne_zero_of_not_isSquare _ hD
  have hy1 := curve_y_ne_zero c hA P hP
  have hy2 := curve_y_ne_zero c hA Q hQ
  have hy3 := curve_y_ne_zero c hA _ (add_isOnCurve c P Q hP hQ h)
  obtain ⟨x1, y1⟩ := P
  obtain ⟨x2, y2⟩ := Q
  obtain ⟨hx, hy⟩ := h
  rw [isOnCurve_iff] at hP hQ
  simp only [PointAffine.denx, PointAffine.deny] at hx hy
  simp only at hP hQ hy1 hy2
  simp only [PointAffine.Add] at hy3 ⊢
  have hNy : y1 * y2 - x1 * x2 * c.A ≠ 0 := by
    intro h0
    apply hy3
    rw [h0, zero_div]
  have hadne : 1 - c.A * c.D * x1 ^ 2 * x2 ^ 2 ≠ 0 := by
    intro h0
    have hf := exceptional_factor c.A c.D x1 y1 x2 y2 hP hQ
    have h1 : c.A * c.D * x1 ^ 2 * x2 ^ 2 - 1 = 0 := by linear_combination -h0
    rw [h1, zero_mul] at hf
    have hu := one_sub_mul_sq_ne_zero c.D hD x1
    have hv := one_sub_mul_sq_ne_zero c.D hD x2
    rcases mul_eq_zero.1 hf with h2 | h2
    · exact (mul_ne_zero hu hv) h2
    · have h3 : (1 + x1 * y2 * (y1 * x2) * c.D) * (1 - x1 * y2 * (y1 * x2) * c.D) = 0 := by
        linear_combination -h2
      exact (mul_ne_zero hx hy) h3
  have hpoly := sqclass_poly c.A c.D x1 y1 x2 y2 hd hP hQ
  have hal : y1 * y2 * (1 - c.A * c.D * x1 ^ 2 * x2 ^ 2) ≠ 0 :=
    mul_ne_zero (mul_ne_zero hy1 hy2) hadne
  refine ⟨(y1 * y2 - x1 * x2 * c.A) / (y1 * y2 * (1 - c.A * c.D * x1 ^ 2 * x2 ^ 2)),
    div_ne_zero hNy hal, ?_⟩
  field_simp
  linear_combination hpoly


/-- The square class is closed under addition. -/
theorem inSquareClass_add (c : CurveParams F) (hA : ¬ IsSquare c.A) (hD : ¬ IsSquare c.D)
    (P Q : PointAffine F) (hP : P.IsOnCurve c = true) (hQ : Q.IsOnCurve c = true)
    (h : PointAffine.AddDefined c P Q) (sP : P.InSquareClass c) (sQ : Q.InSquareClass c) :
    (PointAffine.Add c P Q).InSquareClass c := by
  obtain ⟨w, _, hw⟩ := add_sqclass c hA hD P Q hP hQ h
  obtain ⟨s1, hs1⟩ := sP
  obtain ⟨s2, hs2⟩ := sQ
  refine ⟨s1 * s2 * w, ?_⟩
  rw [hw, hs1, hs2]
  ring

/-- A summand is in the square class when the other summand and the sum are. -/
theorem inSquareClass_of_add (c : CurveParams F) (hA : ¬ IsSquare c.A) (hD : ¬ IsSquare c.D)
    (P Q : PointAffine F) (hP : P.IsOnCurve c = true) (hQ : Q.IsOnCurve c = true)
    (h : PointAffine.AddDefined c P Q) (sP : P.InSquareClass c)
    (sR : (PointAffine.Add c P Q).InSquareClass c) :
    Q.InSquareClass c := by
  obtain ⟨w, hw0, hw⟩ := add_sqclass c hA hD P Q hP hQ h
  obtain ⟨s1, hs1⟩ := sP
  obtain ⟨s3, hs3⟩ := sR
  have hJ : 1 - c.A * P.X * P.X ≠ 0 := by
    have := one_sub_mul_sq_ne_zero c.A hA P.X
    intro h0
    apply this
    linear_combination h0
  have hs1ne : s1 ≠ 0 := by
    intro h0
    apply hJ
    rw [hs1, h0, mul_zero]
  refine ⟨s3 / (s1 * w), ?_⟩
  have hsw : s1 * w ≠ 0 := mul_ne_zero hs1ne hw0
  rw [hs3, hs1] at hw
  field_simp
  linear_combination -hw

/-- The double of a curve point is in the square class. -/
theorem inSquareClass_double (c : CurveParams F) (hA : ¬ IsSquare c.A) (hD : ¬ IsSquare c.D)
    (P : PointAffine F) (hP : P.IsOnCurve c = true) (h : PointAffine.AddDefined c P P) :
    (PointAffine.Add c P P).InSquareClass c := by
  obtain ⟨w, _, hw⟩ := add_sqclass c hA hD P P hP hP h
  refine ⟨(1 - c.A * P.X * P.X) * w, ?_⟩
  rw [hw]
  ring

/-- The identity is in the square class. -/
theorem identity_inSquareClass (c : CurveParams F) :
    (PointAffine.Identity : PointAffine F).InSquareClass c :=
  ⟨1, by simp [PointAffine.Identity]⟩

/-- Every multiple of a curve point of the square class is a curve point of the square
class. -/
theorem nFold_inSquareClass (c : CurveParams F) (hA : ¬ IsSquare c.A) (hD : ¬ IsSquare c.D)
    (hnD : ¬ IsSquare (-c.D)) (P : PointAffine F) (hP : P.IsOnCurve c = true)
    (sP : P.InSquareClass c) :
    ∀ n, (PointAffine.nFold c P n).IsOnCurve c = true ∧
      (PointAffine.nFold c P n).InSquareClass c := by
  intro n
  induction n with
  | zero => exact ⟨identity_isOnCurve c, identity_inSquareClass c⟩
  | succ n ih =>
    have hdef := addDefined_of_inSquareClass c hD hnD _ P ih.1 hP ih.2 sP
    exact ⟨add_isOnCurve c _ P ih.1 hP hdef,
      inSquareClass_add c hA hD _ P ih.1 hP hdef ih.2 sP⟩

/-- No addition of two multiples of a curve point of the square class divides by zero. -/
theorem multiplesDefined_of_inSquareClass (c : CurveParams F) (hA : ¬ IsSquare c.A)
    (hD : ¬ IsSquare c.D) (hnD : ¬ IsSquare (-c.D)) (P : PointAffine F)
    (hP : P.IsOnCurve c = true) (sP : P.InSquareClass c) (n : Nat) :
    P.MultiplesDefined c n := by
  intro i j _
  have hi := nFold_inSquareClass c hA hD hnD P hP sP i
  have hj := nFold_inSquareClass c hA hD hnD P hP sP j
  exact addDefined_of_inSquareClass c hD hnD _ _ hi.1 hj.1 hi.2 hj.2


/-! ## The subgroup test and the square class -/

/-- Projective addition of points with nonzero `Z`: a nonzero `Z` of the result means the
affine images add without dividing by zero. -/
theorem addDefined_of_projAdd (c : CurveParams F) (P1 P2 : PointProj F)
    (h1 : P1.Z ≠ 0) (h2 : P2.Z ≠ 0) (h : (PointProj.Add c P1 P2).Z ≠ 0) :
    PointAffine.AddDefined c (PointAffine.FromProj P1) (PointAffine.FromProj P2) := by
  obtain ⟨X1, Y1, Z1⟩ := P1
  obtain ⟨X2, Y2, Z2⟩ := P2
  simp only at h1 h2
  simp only [PointProj.Add] at h
  obtain ⟨hF, hG⟩ := mul_ne_zero_iff.1 h
  rw [fromProj_eq, fromProj_eq]
  unfold PointAffine.AddDefined
  simp only [PointAffine.denx, PointAffine.deny]
  constructor
  · intro h0
    apply hG
    field_simp at h0
    linear_combination h0
  · intro h0
    apply hF
    field_simp at h0
    linear_combination h0

/-- The result of a projective addition with `Z = 0` has `X * Y = 0`. -/
theorem projAdd_xy_eq_zero (c : CurveParams F) (P1 P2 : PointProj F)
    (h : (PointProj.Add c P1 P2).Z = 0) :
    (PointProj.Add c P1 P2).X * (PointProj.Add c P1 P2).Y = 0 := by
  obtain ⟨X1, Y1, Z1⟩ := P1
  obtain ⟨X2, Y2, Z2⟩ := P2
  simp only [PointProj.Add] at h ⊢
  linear_combination
    (((X1 + Y1) * (X2 + Y2) - X1 * X2 - Y1 * Y2) * (Z1 * Z2) *
      ((Y1 * Y2 - c.A * (X1 * X2)) * (Z1 * Z2))) * h

/-- The doubling step of the loop.  From an accumulator that is either a point with
nonzero `Z` over a curve point or a triple with `Z = 0` and `X * Y = 0`, doubling gives
either a point with nonzero `Z` over a curve point of the square class or the triple
`(0, 0, 0)`. -/
theorem double_state (c : CurveParams F) (hc : c.DoublingDefined) (hA : ¬ IsSquare c.A)
    (hD : ¬ IsSquare c.D) (acc : PointProj F)
    (h : (acc.Z ≠ 0 ∧ (PointAffine.FromProj acc).IsOnCurve c = true) ∨
      (acc.Z = 0 ∧ acc.X * acc.Y = 0)) :
    ((PointProj.Double c acc).Z ≠ 0 ∧
      (PointAffine.FromProj (PointProj.Double c acc)).IsOnCurve c = true ∧
      (PointAffine.FromProj (PointProj.Double c acc)).InSquareClass c) ∨
    ((PointProj.Double c acc).X = 0 ∧ (PointProj.Double c acc).Y = 0 ∧
      (PointProj.Double c acc).Z = 0) := by
  rcases h with ⟨hZ, hon⟩ | ⟨hZ, hXY⟩
  · left
    obtain ⟨hZd, himg⟩ := projDouble_spec c acc hZ hon (hc _ hon)
    rw [himg]
    exact ⟨hZd, add_isOnCurve c _ _ hon hon (hc _ hon),
      inSquareClass_double c hA hD _ hon (hc _ hon)⟩
  · obtain ⟨X, Y, Z⟩ := acc
    simp only at hZ hXY
    subst hZ
    by_cases hF : c.A * (X * X) + Y * Y = 0
    · right
      simp only [PointProj.Double]
      refine ⟨?_, ?_, ?_⟩
      · rw [hF]; ring
      · rw [hF]; ring
      · rw [hF]; ring
    · left
      have hZ3 : (PointProj.Double c ⟨X, Y, 0⟩).Z =
          (c.A * (X * X) + Y * Y) * (c.A * (X * X) + Y * Y) := by
        simp only [PointProj.Double]
        ring
      have hX3 : (PointProj.Double c ⟨X, Y, 0⟩).X = 0 := by
        simp only [PointProj.Double]
        linear_combination (2 * (c.A * (X * X) + Y * Y)) * hXY
      have hY3 : (PointProj.Double c ⟨X, Y, 0⟩).Y =
          (c.A * (X * X) - Y * Y) * (c.A * (X * X) + Y * Y) := by
        simp only [PointProj.Double]
      have hne : (c.A * (X * X) + Y * Y) * (c.A * (X * X) + Y * Y) ≠ 0 := mul_ne_zero hF hF
      have hyy : (c.A * (X * X) - Y * Y) * (c.A * (X * X) - Y * Y) =
          (c.A * (X * X) + Y * Y) * (c.A * (X * X) + Y * Y) := by
        linear_combination (-(4 * c.A * (X * Y))) * hXY
      rw [fromProj_eq, hX3, hY3, hZ3]
      refine ⟨hne, ?_, ?_⟩
      · rw [isOnCurve_iff]
        simp only [zero_div, zero_mul, mul_zero, add_zero, zero_add]
        field_simp
        linear_combination (c.A * (X * X) + Y * Y) ^ 2 * hyy
      · exact ⟨1, by simp [zero_div]⟩


/-- The affine image of the projective image of an affine point. -/
theorem fromProj_fromAffine (P : PointAffine F) :
    PointAffine.FromProj (PointProj.FromAffine P) = P := by
  obtain ⟨x, y⟩ := P
  simp [PointAffine.FromProj, PointProj.FromAffine]

/-- The addition step of the loop.  Adding the projective image of `P` to a doubled
accumulator gives either a point with nonzero `Z` over the affine sum of a curve point of
the square class and `P`, computed without dividing by zero, or a triple with `Z = 0` and
`X * Y = 0`. -/
theorem add_state (c : CurveParams F) (P : PointAffine F) (acc : PointProj F)
    (h : (acc.Z ≠ 0 ∧ (PointAffine.FromProj acc).IsOnCurve c = true ∧
        (PointAffine.FromProj acc).InSquareClass c) ∨
      (acc.X = 0 ∧ acc.Y = 0 ∧ acc.Z = 0)) :
    ((PointProj.Add c acc (PointProj.FromAffine P)).Z ≠ 0 ∧
      ∃ Q : PointAffine F, Q.IsOnCurve c = true ∧ Q.InSquareClass c ∧
        PointAffine.AddDefined c Q P ∧
        PointAffine.FromProj (PointProj.Add c acc (PointProj.FromAffine P)) =
          PointAffine.Add c Q P) ∨
    ((PointProj.Add c acc (PointProj.FromAffine P)).Z = 0 ∧
      (PointProj.Add c acc (PointProj.FromAffine P)).X *
        (PointProj.Add c acc (PointProj.FromAffine P)).Y = 0) := by
  by_cases hz : (PointProj.Add c acc (PointProj.FromAffine P)).Z = 0
  · exact Or.inr ⟨hz, projAdd_xy_eq_zero c _ _ hz⟩
  · left
    rcases h with ⟨hZ, hon, hsq⟩ | ⟨hX, hY, hZ⟩
    · have h1 : (PointProj.FromAffine P).Z ≠ 0 := by simp [PointProj.FromAffine]
      have hdef := addDefined_of_projAdd c acc (PointProj.FromAffine P) hZ h1 hz
      obtain ⟨_, himg⟩ := projAdd_spec c acc (PointProj.FromAffine P) hZ h1 hdef
      rw [fromProj_fromAffine] at hdef himg
      exact ⟨hz, PointAffine.FromProj acc, hon, hsq, hdef, himg⟩
    · exfalso
      apply hz
      obtain ⟨X, Y, Z⟩ := acc
      simp only at hX hY hZ
      subst hX hY hZ
      simp [PointProj.Add]

/-- The loop of `IsInPrimeSubgroup` on a curve point `P`, for a multiplier whose bit `0`
is set: run from an accumulator that is either a point with nonzero `Z` over a curve point
or a triple with `Z = 0` and `X * Y = 0`, it ends either in a point with nonzero `Z` over
the affine sum of a curve point of the square class and `P`, or with `Z = 0`. -/
theorem loop_state (c : CurveParams F) (hc : c.DoublingDefined) (hA : ¬ IsSquare c.A)
    (hD : ¬ IsSquare c.D) (P : PointAffine F) (hP : P.IsOnCurve c = true) (n : Nat)
    (hbit : scalarBit n 0 = 1) :
    ∀ (k : Nat) (acc : PointProj F),
      ((acc.Z ≠ 0 ∧ (PointAffine.FromProj acc).IsOnCurve c = true) ∨
        (acc.Z = 0 ∧ acc.X * acc.Y = 0)) →
      ((doubleAndAddLoop c (PointProj.FromAffine P) n (k + 1) acc).Z ≠ 0 ∧
        ∃ Q : PointAffine F, Q.IsOnCurve c = true ∧ Q.InSquareClass c ∧
          PointAffine.AddDefined c Q P ∧
          PointAffine.FromProj (doubleAndAddLoop c (PointProj.FromAffine P) n (k + 1) acc) =
            PointAffine.Add c Q P) ∨
      (doubleAndAddLoop c (PointProj.FromAffine P) n (k + 1) acc).Z = 0 := by
  intro k
  induction k with
  | zero =>
    intro acc hacc
    have hd := double_state c hc hA hD acc hacc
    have ha := add_state c P _ hd
    simp only [doubleAndAddLoop, hbit, if_true]
    rcases ha with h | h
    · exact Or.inl h
    · exact Or.inr h.1
  | succ k ih =>
    intro acc hacc
    have hd := double_state c hc hA hD acc hacc
    rw [doubleAndAddLoop]
    apply ih
    by_cases hb : scalarBit n (k + 1) = 1
    · simp only [hb, if_true]
      rcases add_state c P _ hd with ⟨hz, Q, hQ, _, hdef, himg⟩ | h
      · left
        refine ⟨hz, ?_⟩
        rw [himg]
        exact add_isOnCurve c Q P hQ hP hdef
      · exact Or.inr h
    · simp only [hb, if_false]
      rcases hd with ⟨hz, hon, _⟩ | ⟨hX, hY, hZ⟩
      · exact Or.inl ⟨hz, hon⟩
      · right
        exact ⟨hZ, by rw [hX, zero_mul]⟩

/-- A curve point that passes `IsInPrimeSubgroup` for an odd order is in the square
class. -/
theorem inSquareClass_of_isInPrimeSubgroup (c : CurveParams F) (order : Nat)
    (hc : c.DoublingDefined) (hA : ¬ IsSquare c.A) (hD : ¬ IsSquare c.D)
    (hodd : order % 2 = 1) (P : PointAffine F) (hP : P.IsOnCurve c = true)
    (hsub : P.IsInPrimeSubgroup c order = true) : P.InSquareClass c := by
  have hbit : scalarBit order 0 = 1 := by simpa [scalarBit] using hodd
  have hid : PointAffine.Identity = PointAffine.FromProj
      (doubleAndAddLoop c (PointProj.FromAffine P) order (scalarBitLen order + 1)
        PointProj.Identity) := (equal_iff _ _).1 hsub
  have hstart : ((PointProj.Identity : PointProj F).Z ≠ 0 ∧
      (PointAffine.FromProj (PointProj.Identity : PointProj F)).IsOnCurve c = true) ∨
      ((PointProj.Identity : PointProj F).Z = 0 ∧
        (PointProj.Identity : PointProj F).X * (PointProj.Identity : PointProj F).Y = 0) := by
    left
    rw [fromProj_identity]
    exact ⟨by simp [PointProj.Identity], identity_isOnCurve c⟩
  rcases loop_state c hc hA hD P hP order hbit (scalarBitLen order) _ hstart with
    ⟨_, Q, hQ, sQ, hdef, himg⟩ | hz
  · rw [himg] at hid
    apply inSquareClass_of_add c hA hD Q P hQ hP hdef sQ
    rw [← hid]
    exact identity_inSquareClass c
  · exfalso
    rw [fromProj_eq, hz] at hid
    simp [PointAffine.Identity] at hid

/-! ## The claims on scalar multiplication, the subgroup test and the solver -/

/-- A bound on the factors can be lowered. -/
theorem multiplesDefined_mono (c : CurveParams F) (P : PointAffine F) (m n : Nat)
    (hmn : m ≤ n) (h : P.MultiplesDefined c n) : P.MultiplesDefined c m :=
  fun i j hij => h i j (le_trans hij hmn)

/-- The affine `ScalarMul` is the multiple by the scalar when no addition of multiples
divides by zero. -/
theorem scalarMul_eq_nFold_of_defined (c : CurveParams F) (P : PointAffine F) (n : Nat)
    (hP : P.IsOnCurve c = true) (hdef : P.MultiplesDefined c n) :
    PointAffine.ScalarMul c P n = PointAffine.nFold c P n :=
  (doubleAndAdd_eq_nFold c P n (scalarBitLen n + 1) hP hdef (Nat.le_succ _)).2

/-- C11, amended: for every point `P` that satisfies the curve equation and passes
`IsInPrimeSubgroup`, and all scalars `a`, `b` of the scalar field (integer values below
the subgroup order), `ScalarMul(P, a+b)` equals `Add(ScalarMul(P, a), ScalarMul(P, b))`
under `Equal`, where `a+b` is reduced modulo the subgroup order.  The subgroup order is
assumed odd and none of the curve constants `A`, `D`, `-D` a square, as for
Bandersnatch. -/
theorem scalarMul_add (c : CurveParams F) (order a b : Nat) (P : PointAffine F)
    (hA : ¬ IsSquare c.A) (hD : ¬ IsSquare c.D) (hnD : ¬ IsSquare (-c.D))
    (hodd : order % 2 = 1)
    (hP : P.IsOnCurve c = true) (hsub : P.IsInPrimeSubgroup c order = true)
    (ha : a < order) (hb : b < order) :
    PointAffine.Equal (PointAffine.ScalarMul c P ((a + b) % order))
      (PointAffine.Add c (PointAffine.ScalarMul c P a) (PointAffine.ScalarMul c P b)) =
        true := by
  have hc : c.DoublingDefined := doublingDefined_of_not_isSquare c hD hnD
  have hdef : ∀ n, P.MultiplesDefined c n :=
    multiplesDefined_of_inSquareClass c hA hD hnD P hP
      (inSquareClass_of_isInPrimeSubgroup c order hc hA hD hodd P hP hsub)
  rw [equal_iff]
  rw [scalarMul_eq_nFold_of_defined c P a hP (hdef a),
    scalarMul_eq_nFold_of_defined c P b hP (hdef b),
    scalarMul_eq_nFold_of_defined c P _ hP (hdef _),
    ← nFold_add c P (a + b) hP (hdef _) b a le_rfl]
  by_cases hlt : a + b < order
  · rw [Nat.mod_eq_of_lt hlt]
  · have hge : order ≤ a + b := by omega
    have hmodeq : (a + b) % order = a + b - order := by
      rw [Nat.mod_eq_sub_mod hge]
      exact Nat.mod_eq_of_lt (by omega)
    have hord : PointAffine.nFold c P order = PointAffine.Identity := by
      have h1 := (doubleAndAdd_eq_nFold c P order (scalarBitLen order + 1) hP
        (hdef order) (Nat.le_succ _)).2
      have h2 : PointAffine.Identity = PointAffine.FromProj
          (doubleAndAddLoop c (PointProj.FromAffine P) order (scalarBitLen order + 1)
            PointProj.Identity) := (equal_iff _ _).1 hsub
      rw [← h1, ← h2]
    have hsplit : a + b = (a + b - order) + order := by omega
    rw [hmodeq]
    conv_rhs => rw [hsplit]
    rw [nFold_add c P (a + b) hP (hdef _) order (a + b - order) (by omega), hord,
      add_identity_right]

/-- C12: for every affine point `P`, the affine `ScalarMul(P, 0)` returns exactly the
identity `(0, 1)`; for every projective point `P`, the projective `ScalarMul(P, 0)`
returns a point that `PointProj.Equal` reports equal to the projective identity
`(0, 1, 1)`. -/
theorem scalarMul_zero (c : CurveParams F) (P : PointAffine F) (P' : PointProj F) :
    PointAffine.ScalarMul c P 0 = PointAffine.Identity ∧
    PointProj.Equal (PointProj.ScalarMul c P' 0) PointProj.Identity = true := by
  have hloop : ∀ Q : PointProj F,
      doubleAndAddLoop c Q 0 (scalarBitLen 0 + 1) PointProj.Identity = ⟨0, -1, -1⟩ := by
    intro Q
    simp [doubleAndAddLoop, scalarBitLen, bitLenAux, scalarBit, PointProj.Double,
      PointProj.Identity]
  have hne : (-1 : F) ≠ 0 := neg_ne_zero.2 one_ne_zero
  constructor
  · unfold PointAffine.ScalarMul
    simp only []
    rw [hloop, fromProj_eq]
    simp [PointAffine.Identity, hne]
  · unfold PointProj.ScalarMul PointProj.Equal
    simp only []
    rw [hloop]
    have hz : ¬ ((-1 : F) = 0 ∨ (PointProj.Identity : PointProj F).Z = 0) := by
      simp [PointProj.Identity]
    rw [if_neg hz, equal_iff, fromProj_eq, fromProj_eq]
    simp [PointProj.Identity, hne]

/-- C13: the subgroup order being odd, `IsInPrimeSubgroup` returns false on every point of
small order, that is every curve point other than the identity whose fourfold
`Double(Double(P))` is the identity (the cofactor of Bandersnatch is 4), in particular on
the order-2 point `(0, -1)`; and it returns true on the identity `(0, 1)`.  The curve
constants are assumed to be such that doubling a curve point never divides by zero and
`A` is not a square, as for Bandersnatch, and the field to have `2 ≠ 0`. -/
theorem isInPrimeSubgroup_small_order (c : CurveParams F) (order : Nat)
    (hc : c.DoublingDefined) (hA : ¬ IsSquare c.A) (h2 : (2 : F) ≠ 0)
    (hodd : order % 2 = 1) :
    (∀ P : PointAffine F, P.IsOnCurve c = true → P ≠ PointAffine.Identity →
      PointAffine.Double c (PointAffine.Double c P) = PointAffine.Identity →
      P.IsInPrimeSubgroup c order = false) ∧
    PointAffine.IsInPrimeSubgroup c order ⟨0, -1⟩ = false ∧
    PointAffine.IsInPrimeSubgroup c order PointAffine.Identity = true := by
  have hne1 : (1 : F) ≠ -1 := by
    intro h
    apply h2
    linear_combination h
  have hneg : PointAffine.IsInPrimeSubgroup c order ⟨0, -1⟩ = false := by
    unfold PointAffine.IsInPrimeSubgroup
    simp only []
    rw [doubleAndAdd_torsion c (-1) (by ring) order, if_pos hodd]
    simp [PointAffine.Equal, PointAffine.Identity, hne1]
  refine ⟨?_, hneg, ?_⟩
  · intro P hP hne h4
    rw [eq_of_fourfold_eq_identity c hc hA h2 P hP hne h4]
    exact hneg
  · unfold PointAffine.IsInPrimeSubgroup
    simp only []
    have h := doubleAndAdd_torsion c 1 (by ring) order
    have hid : (PointAffine.Identity : PointAffine F) = ⟨0, 1⟩ := rfl
    rw [hid, h]
    simp [PointAffine.Equal]

/-- C14: for every affine point `(x, y)`, `IsOnCurve` returns true if and only if
`A*x^2 + y^2 = 1 + D*x^2*y^2` holds in the base field, and false otherwise; it is a total
function. -/
theorem isOnCurve_exact (c : CurveParams F) (p : PointAffine F) :
    (p.IsOnCurve c = true ↔ c.A * p.X ^ 2 + p.Y ^ 2 = 1 + c.D * p.X ^ 2 * p.Y ^ 2) ∧
    (p.IsOnCurve c = false ↔ ¬ (c.A * p.X ^ 2 + p.Y ^ 2 = 1 + c.D * p.X ^ 2 * p.Y ^ 2)) := by
  have h : p.IsOnCurve c = true ↔
      c.A * p.X ^ 2 + p.Y ^ 2 = 1 + c.D * p.X ^ 2 * p.Y ^ 2 := by
    rw [isOnCurve_iff]
    constructor <;> intro h <;> linear_combination h
  refine ⟨h, ?_⟩
  rw [← h]
  simp

/-- C15: for every field element `x`, with `v = (A*x^2 - 1)/(D*x^2 - 1)`: when `Sqrt(v)` is
`nil`, `GetPointFromX(x, flag)` returns no point for both flag values; when `Sqrt(v)`
returns a root, `GetPointFromX(x, flag)` returns, for either flag, a point whose `X` equals
`x` and which satisfies `IsOnCurve`.  A returned root is assumed to square to `v`, and
the coefficient `D` not to be a square, as for Bandersnatch. -/
theorem getPointFromX_spec (c : CurveParams F) (ops : ElementOps F) (x : F)
    (hD : ¬ IsSquare c.D)
    (hsqrt : ∀ r, ops.Sqrt ((x * x * c.A - 1) / (x * x * c.D - 1)) = some r →
      r * r = (x * x * c.A - 1) / (x * x * c.D - 1)) :
    (ops.Sqrt ((x * x * c.A - 1) / (x * x * c.D - 1)) = none →
      ∀ flag, GetPointFromX c ops x flag = none) ∧
    (∀ r, ops.Sqrt ((x * x * c.A - 1) / (x * x * c.D - 1)) = some r →
      ∀ flag, ∃ p, GetPointFromX c ops x flag = some p ∧ p.X = x ∧
        p.IsOnCurve c = true) := by
  constructor
  · intro h flag
    unfold GetPointFromX
    rw [(computeY_eq_none_iff c ops x flag).2 h]
  · intro r hr flag
    have hrr := hsqrt r hr
    have hden : x * x * c.D - 1 ≠ 0 := by
      intro h0
      apply hD
      have hx : x ≠ 0 := by
        intro hx
        rw [hx] at h0
        simp at h0
      refine ⟨x⁻¹, ?_⟩
      field_simp
      linear_combination h0
    rw [eq_div_iff hden] at hrr
    have hon : ∀ y : F, y * y = r * r → (⟨x, y⟩ : PointAffine F).IsOnCurve c = true := by
      intro y hy
      rw [isOnCurve_iff]
      simp only
      linear_combination (-(x * x * c.D - 1)) * hy - hrr
    unfold GetPointFromX computeY
    simp only []
    rw [hr]
    by_cases hf : flag = ops.LexicographicallyLargest r
    · simp only [hf, if_true]
      exact ⟨⟨x, r⟩, rfl, rfl, hon r rfl⟩
    · simp only [hf, if_false]
      exact ⟨⟨x, -r⟩, rfl, rfl, hon (-r) (by ring)⟩

/-- C16: for every `x` for which `computeY` returns a root `y` and for every value of the
flag `choose_largest`, the returned `y` satisfies
`LexicographicallyLargest(y) = choose_largest`.  With `v = (A*x^2 - 1)/(D*x^2 - 1)`, a root
returned by `Sqrt(v)` is assumed to square to `v` and, when nonzero, to have the opposite
`LexicographicallyLargest` value to its negation; the coefficients `A` and `D` are assumed
not to be squares, as for Bandersnatch. -/
theorem computeY_sign (c : CurveParams F) (ops : ElementOps F) (x : F)
    (hA : ¬ IsSquare c.A) (hD : ¬ IsSquare c.D)
    (hsqrt : ∀ r, ops.Sqrt ((x * x * c.A - 1) / (x * x * c.D - 1)) = some r →
      r * r = (x * x * c.A - 1) / (x * x * c.D - 1))
    (hlex : ∀ r, ops.Sqrt ((x * x * c.A - 1) / (x * x * c.D - 1)) = some r → r ≠ 0 →
      ops.LexicographicallyLargest (-r) = !ops.LexicographicallyLargest r)
    (choose_largest : Bool) (y : F) (hy : computeY c ops x choose_largest = some y) :
    ops.LexicographicallyLargest y = choose_largest := by
  have hx : x ≠ 0 → x * x * c.D - 1 ≠ 0 ∧ x * x * c.A - 1 ≠ 0 := by
    intro hx
    constructor
    · intro h0
      apply hD
      refine ⟨x⁻¹, ?_⟩
      field_simp
      linear_combination h0
    · intro h0
      apply hA
      refine ⟨x⁻¹, ?_⟩
      field_simp
      linear_combination h0
  have hv : (x * x * c.A - 1) / (x * x * c.D - 1) ≠ 0 := by
    by_cases h0 : x = 0
    · subst h0
      simp
    · exact div_ne_zero (hx h0).2 (hx h0).1
  unfold computeY at hy
  simp only [] at hy
  cases hr : ops.Sqrt ((x * x * c.A - 1) / (x * x * c.D - 1)) with
  | none => rw [hr] at hy; simp at hy
  | some r =>
    rw [hr] at hy
    simp only [] at hy
    have hr0 : r ≠ 0 := by
      intro h0
      apply hv
      rw [← hsqrt r hr, h0, mul_zero]
    by_cases hf : choose_largest = ops.LexicographicallyLargest r
    · simp only [hf, if_true, Option.some.injEq] at hy
      rw [← hy, hf]
    · simp only [hf, if_false, Option.some.injEq] at hy
      rw [← hy, hlex r hr hr0]
      cases hc : choose_largest <;> cases hl : ops.LexicographicallyLargest r <;>
        simp_all

/-- C18: for all projective points `P`, `Q`, `PointProj.Equal(P, Q)` is false whenever
`P.Z = 0` or `Q.Z = 0`, and otherwise is true exactly when `P.X/P.Z = Q.X/Q.Z` and
`P.Y/P.Z = Q.Y/Q.Z`; it is unchanged when the three coordinates of one operand are scaled
by a common nonzero factor. -/
theorem projEqual_spec (P Q : PointProj F) :
    (P.Z = 0 ∨ Q.Z = 0 → PointProj.Equal P Q = false) ∧
    (P.Z ≠ 0 → Q.Z ≠ 0 →
      (PointProj.Equal P Q = true ↔ P.X / P.Z = Q.X / Q.Z ∧ P.Y / P.Z = Q.Y / Q.Z)) ∧
    (∀ k : F, k ≠ 0 →
      PointProj.Equal ⟨k * P.X, k * P.Y, k * P.Z⟩ Q = PointProj.Equal P Q ∧
      PointProj.Equal Q ⟨k * P.X, k * P.Y, k * P.Z⟩ = PointProj.Equal Q P) := by
  refine ⟨?_, ?_, ?_⟩
  · intro h
    unfold PointProj.Equal
    rw [if_pos h]
  · intro hP hQ
    unfold PointProj.Equal
    rw [if_neg (not_or.2 ⟨hP, hQ⟩), equal_iff, fromProj_eq, fromProj_eq]
    simp
  · intro k hk
    have hscale : PointAffine.FromProj (⟨k * P.X, k * P.Y, k * P.Z⟩ : PointProj F) =
        PointAffine.FromProj P := by
      rw [fromProj_eq, fromProj_eq]
      simp only [PointAffine.mk.injEq]
      exact ⟨mul_div_mul_left _ _ hk, mul_div_mul_left _ _ hk⟩
    have hz : k * P.Z = 0 ↔ P.Z = 0 := by
      simp [hk]
    unfold PointProj.Equal
    simp only [hscale, hz]
    exact ⟨trivial, trivial⟩

/-- C19: for every affine point `P` on the curve and every scalar with integer value `n`
such that no addition of two multiples of `P` with factors summing to at most `n` divides
by zero, the affine `ScalarMul(P, s)` equals, under `Equal`, the `n`-fold affine sum
`P + ... + P` starting from the identity; the loop started one index lower, at
`BitLen - 1`, gives the same point, so the leading iteration at index `BitLen` does not
change the result. -/
theorem scalarMul_eq_nFold (c : CurveParams F) (P : PointAffine F) (n : Nat)
    (hP : P.IsOnCurve c = true) (hdef : P.MultiplesDefined c n) :
    PointAffine.Equal (PointAffine.ScalarMul c P n) (PointAffine.nFold c P n) = true ∧
    scalarBit n (scalarBitLen n) = 0 ∧
    PointAffine.FromProj (doubleAndAddLoop c (PointProj.FromAffine P) n (scalarBitLen n)
      PointProj.Identity) = PointAffine.ScalarMul c P n := by
  have h1 := (doubleAndAdd_eq_nFold c P n (scalarBitLen n + 1) hP hdef (Nat.le_succ _)).2
  have h2 := (doubleAndAdd_eq_nFold c P n (scalarBitLen n) hP hdef le_rfl).2
  refine ⟨(equal_iff _ _).2 h1, ?_, ?_⟩
  · unfold scalarBit
    rw [div_two_pow_eq_zero n _ le_rfl]
  · rw [h2]
    exact h1.symm

/-- C20: for all affine points `P`, `Q` that satisfy `IsOnCurve` and for which both
denominators `1 + D*x1*x2*y1*y2` and `1 - D*x1*x2*y1*y2` are nonzero, the result of
`Add(P, Q)` satisfies `IsOnCurve`; `Neg(P)` also satisfies `IsOnCurve`. -/
theorem add_neg_isOnCurve (c : CurveParams F) (P Q : PointAffine F)
    (hP : P.IsOnCurve c = true) (hQ : Q.IsOnCurve c = true)
    (hx : 1 + c.D * P.X * Q.X * P.Y * Q.Y ≠ 0)
    (hy : 1 - c.D * P.X * Q.X * P.Y * Q.Y ≠ 0) :
    (PointAffine.Add c P Q).IsOnCurve c = true ∧
    (PointAffine.Neg P).IsOnCurve c = true := by
  constructor
  · apply add_isOnCurve c P Q hP hQ
    constructor
    · intro h0
      apply hx
      simp only [PointAffine.denx] at h0
      linear_combination h0
    · intro h0
      apply hy
      simp only [PointAffine.deny] at h0
      linear_combination h0
  · rw [isOnCurve_iff] at hP ⊢
    simp only [PointAffine.Neg]
    linear_combination hP

/-! ## The claims at Bandersnatch points -/

set_option maxRecDepth 100000 in
/-- The coefficient `A = -5` of Bandersnatch is not a square. -/
theorem edwards_A_not_isSquare : ¬ IsSquare edwards.A :=
  fp_not_isSquare _ (by decide) (by decide)

set_option maxRecDepth 100000 in
/-- For Bandersnatch, `-D` is not a square. -/
theorem edwards_negD_not_isSquare : ¬ IsSquare (-edwards.D) :=
  fp_not_isSquare _ (by decide) (by decide)

set_option maxRecDepth 100000 in
/-- No addition of two multiples of the generator with factors summing to at most 5
divides by zero. -/
theorem genPoint_multiplesDefined : genPoint.MultiplesDefined edwards 5 := by
  intro i j hij
  have hi : i ≤ 5 := by omega
  have hj : j ≤ 5 := by omega
  interval_cases i <;> interval_cases j <;> first | omega | decide

set_option maxRecDepth 100000 in
/-- The root returned by `Sqrt` at the x-coordinate of the generator squares to its
argument. -/
theorem genPoint_sqrt_sound : ∀ r,
    fpOps.Sqrt ((genPoint.X * genPoint.X * edwards.A - 1) /
      (genPoint.X * genPoint.X * edwards.D - 1)) = some r →
    r * r = (genPoint.X * genPoint.X * edwards.A - 1) /
      (genPoint.X * genPoint.X * edwards.D - 1) := by
  intro r hr
  have h : fpOps.Sqrt ((genPoint.X * genPoint.X * edwards.A - 1) /
      (genPoint.X * genPoint.X * edwards.D - 1)) = some (-genPoint.Y) := by decide
  rw [h] at hr
  obtain rfl := Option.some.inj hr
  decide

set_option maxRecDepth 100000 in
/-- The root returned by `Sqrt` at the x-coordinate of the generator and its negation have
opposite signs. -/
theorem genPoint_sqrt_lex : ∀ r,
    fpOps.Sqrt ((genPoint.X * genPoint.X * edwards.A - 1) /
      (genPoint.X * genPoint.X * edwards.D - 1)) = some r → r ≠ 0 →
    fpOps.LexicographicallyLargest (-r) = !fpOps.LexicographicallyLargest r := by
  intro r hr _
  have h : fpOps.Sqrt ((genPoint.X * genPoint.X * edwards.A - 1) /
      (genPoint.X * genPoint.X * edwards.D - 1)) = some (-genPoint.Y) := by decide
  rw [h] at hr
  obtain rfl := Option.some.inj hr
  decide

/-- C11 as stated fails: the order-2 point `(0, -1)` lies on Bandersnatch and, for the
scalars `a = r - 1` and `b = 1` of the scalar field, whose sum is `0`, `ScalarMul(P, a+b)`
and `Add(ScalarMul(P, a), ScalarMul(P, b))` are not `Equal`. -/
theorem scalarMul_add_counterexample :
    orderTwoPoint.IsOnCurve edwards = true ∧ rOrder - 1 < rOrder ∧ 1 < rOrder ∧
    (rOrder - 1 + 1) % rOrder = 0 ∧
    PointAffine.Equal (PointAffine.ScalarMul edwards orderTwoPoint ((rOrder - 1 + 1) % rOrder))
      (PointAffine.Add edwards (PointAffine.ScalarMul edwards orderTwoPoint (rOrder - 1))
        (PointAffine.ScalarMul edwards orderTwoPoint 1)) = false := by
  decide!

/-- C11 amended, at the generator of Bandersnatch with `a = r - 1` and `b = 2`, whose
integer sum `r + 1` exceeds the subgroup order `r` and reduces to `1`. -/
theorem scalarMul_add_witness :
    rOrder ≤ rOrder - 1 + 2 ∧
    PointAffine.Equal (PointAffine.ScalarMul edwards genPoint ((rOrder - 1 + 2) % rOrder))
      (PointAffine.Add edwards (PointAffine.ScalarMul edwards genPoint (rOrder - 1))
        (PointAffine.ScalarMul edwards genPoint 2)) = true :=
  ⟨by decide, scalarMul_add edwards rOrder (rOrder - 1) 2 genPoint edwards_A_not_isSquare
    edwards_D_not_isSquare edwards_negD_not_isSquare (by decide) (by decide!) (by decide!)
    (by decide) (by decide)⟩

/-- C13, at the order-2 point `(0, -1)` of Bandersnatch and the order of its prime
subgroup. -/
theorem isInPrimeSubgroup_small_order_witness :
    orderTwoPoint.IsInPrimeSubgroup edwards rOrder = false ∧
    PointAffine.IsInPrimeSubgroup edwards rOrder PointAffine.Identity = true :=
  ⟨(isInPrimeSubgroup_small_order edwards rOrder edwards_doublingDefined
      edwards_A_not_isSquare (by decide!) (by decide!)).1 orderTwoPoint (by decide!)
      (by decide!) (by decide!),
    (isInPrimeSubgroup_small_order edwards rOrder edwards_doublingDefined
      edwards_A_not_isSquare (by decide!) (by decide!)).2.2⟩

/-- C15, at the x-coordinate of the generator of Bandersnatch: each flag gives a curve
point over it. -/
theorem getPointFromX_spec_witness :
    (∃ p, GetPointFromX edwards fpOps genPoint.X true = some p ∧ p.X = genPoint.X ∧
      p.IsOnCurve edwards = true) ∧
    (∃ p, GetPointFromX edwards fpOps genPoint.X false = some p ∧ p.X = genPoint.X ∧
      p.IsOnCurve edwards = true) :=
  ⟨(getPointFromX_spec edwards fpOps genPoint.X edwards_D_not_isSquare
      genPoint_sqrt_sound).2 (-genPoint.Y) (by decide!) true,
    (getPointFromX_spec edwards fpOps genPoint.X edwards_D_not_isSquare
      genPoint_sqrt_sound).2 (-genPoint.Y) (by decide!) false⟩

/-- C16, at the x-coordinate of the generator of Bandersnatch with the flag set. -/
theorem computeY_sign_witness :
    fpOps.LexicographicallyLargest (-genPoint.Y) = true :=
  computeY_sign edwards fpOps genPoint.X edwards_A_not_isSquare edwards_D_not_isSquare
    genPoint_sqrt_sound genPoint_sqrt_lex true (-genPoint.Y) (by decide!)

/-- C18, at the projective image of the generator of Bandersnatch, scaled by 2 and
compared with itself. -/
theorem projEqual_spec_witness :
    PointProj.Equal ⟨2 * genPoint.X, 2 * genPoint.Y, 2 * 1⟩ (PointProj.FromAffine genPoint) =
      true ∧
    PointProj.Equal ⟨genPoint.X, genPoint.Y, 0⟩ (PointProj.FromAffine genPoint) = false :=
  ⟨((projEqual_spec (PointProj.FromAffine genPoint) (PointProj.FromAffine genPoint)).2.2 2
      (by decide!)).1.trans
      (((projEqual_spec (PointProj.FromAffine genPoint)
        (PointProj.FromAffine genPoint)).2.1 (by decide!) (by decide!)).2 ⟨rfl, rfl⟩),
    (projEqual_spec ⟨genPoint.X, genPoint.Y, 0⟩ (PointProj.FromAffine genPoint)).1
      (Or.inl rfl)⟩

/-- C19, at the generator of Bandersnatch with the scalar 5. -/
theorem scalarMul_eq_nFold_witness :
    PointAffine.Equal (PointAffine.ScalarMul edwards genPoint 5)
      (PointAffine.nFold edwards genPoint 5) = true :=
  (scalarMul_eq_nFold edwards genPoint 5 (by decide!) genPoint_multiplesDefined).1

/-- C20, at the generator of Bandersnatch added to itself. -/
theorem add_neg_isOnCurve_witness :
    (PointAffine.Add edwards genPoint genPoint).IsOnCurve edwards = true ∧
    (PointAffine.Neg genPoint).IsOnCurve edwards = true :=
  add_neg_isOnCurve edwards genPoint genPoint (by decide!) (by decide!) (by decide!)
    (by decide!)

end Bandersnatch
